import Mathlib

/-!
Verification development for the `radix_sort` repository.

The repository provides two radix-sort strategies behind one driver class
`RadixSorter<T, Base>` (radix_sort.cpp):

* an MSD (most-significant-digit-first) recursive sorter `RadixSorter::helper`
  that oscillates between two equal-length buffers, with digit extraction
  `RadixSorter::get_digit`, digit counting `RadixSorter::get_digits` and
  place-value computation `RadixSorter::get_power`;
* an LSD (least-significant-digit-first) iterative sorter `radix_sort` /
  `counting_sort` (radix_sort_chatgpt.cpp).

The element type `T` is modelled by `ℤ`; C++ `/` and `%` on signed integers
truncate toward zero, which is `Int.tdiv` / `Int.tmod` (Lean's `/` and `%` on
`ℤ` are euclidean and differ on negative operands, so the truncating forms are
named explicitly below).  C++ `while` loops and the recursion of `helper` are
modelled with an explicit fuel parameter; every call site passes fuel strictly
exceeding the number of iterations the C++ loop performs (this is proved where
it matters), so the fuel-exhaustion branch is never taken on the modelled
domain.  Arrays indexed by digits (`counts`, `positions`, `current_position`)
are modelled as functions `ℕ → ℕ`, and the two working buffers as lists, with
`List.set` for element stores.
-/

namespace RadixSort

/-- C++ division `/` on signed integers: truncation toward zero. -/
def cdiv (a b : ℤ) : ℤ := a.tdiv b

/-- C++ remainder `%` on signed integers: sign of the dividend. -/
def cmod (a b : ℤ) : ℤ := a.tmod b

/-- `RadixSorter::get_digit` (radix_sort.cpp, lines 232-237).
With `handleNegativeNumbers` the digit is biased: negative values map to
`Base - ((value / -power) % Base)` and non-negative ones to
`Base + ((value / power) % Base)`; otherwise it is `(value / power) % Base`. -/
def getDigit (B : ℤ) (neg : Bool) (value power : ℤ) : ℤ :=
  if neg then
    if value < 0 then B - cmod (cdiv value (-power)) B
    else B + cmod (cdiv value power) B
  else cmod (cdiv value power) B

/-- `get_digit` of radix_sort_chatgpt.cpp (lines 28-32): `(value / power) % Base`. -/
def getDigitCg (B : ℤ) (value power : ℤ) : ℤ := cmod (cdiv value power) B

/-- The loop `while (value >= Base) { value /= Base; ++digits; }` of
`RadixSorter::get_digits` (radix_sort.cpp, lines 212-216), with fuel.
For `Base ≥ 2` the loop strictly shrinks a non-negative `value`, so any fuel
above `value.toNat` reaches the loop's own exit condition. -/
def digitsLoop (B : ℤ) : ℕ → ℤ → ℕ → ℕ
  | 0, _, digits => digits
  | fuel + 1, value, digits =>
    if B ≤ value then digitsLoop B fuel (cdiv value B) (digits + 1) else digits

/-- `RadixSorter::get_digits` (radix_sort.cpp, lines 188-219): digit count of
the magnitude of `value` in base `B`.  A negative `value` above `-Base` yields
1; otherwise the value is divided by `Base` first and the quotient negated
(never the value itself), entering the loop with `digits = 2`. -/
def get_digits (B : ℤ) (value : ℤ) : ℕ :=
  if value < 0 then
    if -B < value then 1
    else digitsLoop B (-(cdiv value B)).toNat.succ (-(cdiv value B)) 2
  else digitsLoop B value.toNat.succ value 1

/-- `RadixSorter::get_power` (radix_sort.cpp, lines 221-230): `Base^n` by
repeated multiplication. -/
def get_power (B : ℤ) : ℕ → ℤ
  | 0 => 1
  | n + 1 => get_power B n * B

/-- One `counts[k] += 1` store into a tally array. -/
def bump (f : ℕ → ℕ) (k : ℕ) : ℕ → ℕ := fun j => if j = k then f j + 1 else f j

/-- The counting pass `for (i...) counts[get_digit(data[i], power)] += 1`
(radix_sort.cpp lines 256-257, radix_sort_chatgpt.cpp lines 47-51), for an
abstract digit function `key`. -/
def countsOf (key : ℤ → ℕ) (d : List ℤ) : ℕ → ℕ :=
  d.foldl (fun c x => bump c (key x)) fun _ => 0

/-- The running sum `positions[i] = position; position += counts[i]`
(radix_sort.cpp lines 259-264): exclusive partial sums of the counts. -/
def positionsOf (c : ℕ → ℕ) (v : ℕ) : ℕ := ((List.range v).map c).sum

/-- One iteration of the placement loop (radix_sort.cpp lines 270-276):
`temp[current_position[digit]] = d; current_position[digit] += 1`.  The state
is the buffer being written plus the `current_position` array. -/
def scatterStep (key : ℤ → ℕ) (st : List ℤ × (ℕ → ℕ)) (x : ℤ) : List ℤ × (ℕ → ℕ) :=
  (st.1.set (st.2 (key x)) x, bump st.2 (key x))

/-- The whole placement pass of `RadixSorter::helper`: fold `scatterStep` over
the partition, starting from the scratch buffer `t` and the start positions. -/
def scatter (key : ℤ → ℕ) (d t : List ℤ) : List ℤ :=
  (d.foldl (scatterStep key) (t, positionsOf (countsOf key d))).1

/-- `RadixSorter::helper` (radix_sort.cpp, lines 239-304), as a function from
the contents `d`, `t` of the partition's ranges of the data and scratch buffer
to their final contents.  A recursive call swaps buffer roles, so the parent's
data range is reassembled from the children's scratch components and vice
versa; the bucket ranges are read off `positions`/`counts` exactly as the
source does.  In the base case a copy `data -> temp` is owed when `max_digits`
is even (`!(max_digits & 1)`).  The fuel mirrors the recursion depth, which
the source bounds by `max_digits`; callers pass `max_digits + 1`. -/
def helper (B : ℤ) (neg : Bool) : ℕ → List ℤ → List ℤ → ℤ → ℤ → List ℤ × List ℤ
  | 0, d, t, _, _ => (d, t)
  | fuel + 1, d, t, m, p =>
    if 2 ≤ d.length ∧ 1 ≤ p then
      let key := fun x : ℤ => (getDigit B neg x p).toNat
      let c := countsOf key d
      let pos := positionsOf c
      let s := scatter key d t
      if 1 < p then
        let parts := (List.range (2 * B).toNat).map fun v =>
          helper B neg fuel ((s.drop (pos v)).take (c v)) ((d.drop (pos v)).take (c v))
            (m - 1) (cdiv p B)
        ((parts.map Prod.snd).flatten, (parts.map Prod.fst).flatten)
      else (d, s)
    else if m % 2 = 0 then (d, d) else (d, t)

/-- The list of recursive calls of one `helper` invocation (radix_sort.cpp
lines 283-291): for each bucket `i`,
`helper(temp + positions[i], data + positions[i], counts[i], max_digits - 1, power / Base)`,
expressed on the ranges' contents.  This is exactly the `parts` value inside
`helper`; naming it separately lets the proofs unfold one recursion step. -/
def helperParts (B : ℤ) (neg : Bool) (fuel : ℕ) (d t : List ℤ) (m p : ℤ) :
    List (List ℤ × List ℤ) :=
  (List.range (2 * B).toNat).map fun v =>
    helper B neg fuel
      (((scatter (fun x => (getDigit B neg x p).toNat) d t).drop
          (positionsOf (countsOf (fun x => (getDigit B neg x p).toNat) d) v)).take
        (countsOf (fun x => (getDigit B neg x p).toNat) d v))
      ((d.drop (positionsOf (countsOf (fun x => (getDigit B neg x p).toNat) d) v)).take
        (countsOf (fun x => (getDigit B neg x p).toNat) d v))
      (m - 1) (cdiv p B)

/-- One store of the in-place loop `counts[i] += counts[i-1]`
(radix_sort_chatgpt.cpp lines 58-60). -/
def accumStep (f : ℕ → ℕ) (i : ℕ) : ℕ → ℕ := fun j => if j = i then f (i - 1) + f i else f j

/-- The loop `for (i = 1; i < Base; ++i) counts[i] += counts[i-1]`: turns the
counts into inclusive partial sums (bucket end positions). -/
def accumEnds (c : ℕ → ℕ) (nb : ℕ) : ℕ → ℕ := (List.range' 1 (nb - 1)).foldl accumStep c

/-- One iteration of the backward placement loop (radix_sort_chatgpt.cpp lines
64-68): `temp[counts[digit] -= 1] = data`, i.e. pre-decrement the end position
of the element's bucket and store there. -/
def scatterBackStep (key : ℤ → ℕ) (st : List ℤ × (ℕ → ℕ)) (x : ℤ) : List ℤ × (ℕ → ℕ) :=
  (st.1.set (st.2 (key x) - 1) x, fun j => if j = key x then st.2 (key x) - 1 else st.2 j)

/-- The whole backward pass: the source walks the array from `end` downward
(`*--end`), i.e. folds over the reversed list. -/
def scatterBack (key : ℤ → ℕ) (d t : List ℤ) (ends : ℕ → ℕ) : List ℤ :=
  (d.reverse.foldl (scatterBackStep key) (t, ends)).1

/-- `counting_sort` (radix_sort_chatgpt.cpp, lines 34-71): one stable pass by
the digit at place `exp`, over the whole array.  `std::vector<T> temp(size)`
zero-initialises, and the final `std::copy` makes `temp` the result. -/
def counting_sort (B : ℤ) (d : List ℤ) (exp : ℤ) : List ℤ :=
  if d = [] then d
  else
    let key := fun x : ℤ => (getDigitCg B x exp).toNat
    let c := countsOf key d
    if d.length < 2 then d
    else scatterBack key d (List.replicate d.length 0) (accumEnds c B.toNat)

/-- The loop `while (max >= exp) { counting_sort(...); exp *= Base; }`
(radix_sort_chatgpt.cpp lines 92-102), with fuel.  For `Base ≥ 2` the place
value at least doubles each pass, so fuel `max.toNat + 1` always reaches the
loop's own exit condition (proved below). -/
def radixLoop (B mx : ℤ) : ℕ → List ℤ → ℤ → List ℤ
  | 0, d, _ => d
  | fuel + 1, d, exp =>
    if exp ≤ mx then radixLoop B mx fuel (counting_sort B d exp) (exp * B) else d

/-- `radix_sort` (radix_sort_chatgpt.cpp, lines 73-103): maximum element by a
fold starting from `*begin`, then LSD passes from place value 1 upward. -/
def radix_sort (B : ℤ) (d : List ℤ) : List ℤ :=
  if d = [] then d
  else
    let mx := d.foldl max d.headI
    if d.length < 2 then d
    else radixLoop B mx mx.toNat.succ d 1

/-- `RadixSorter::operator()` (radix_sort.cpp, lines 141-184).  The input is
copied; the chatGpt strategy sorts the copy in place and returns it; otherwise
inputs of length < 2 are returned at once, and the recursive strategy runs
`helper` on the copy and a zero-initialised scratch buffer of equal length,
returning `copy` when `max_digits` is odd and `temp` when it is even. -/
def radixSorter (B : ℤ) (chatGpt handleNegativeNumbers : Bool) (input : List ℤ) : List ℤ :=
  let copy := input
  if chatGpt then radix_sort B copy
  else
    if copy.length < 2 then copy
    else
      let temp : List ℤ := List.replicate copy.length 0
      let mx := copy.foldl max copy.headI
      if handleNegativeNumbers then
        let mn := copy.foldl min copy.headI
        let m := max (get_digits B mn) (get_digits B mx)
        let pr := helper B true (m + 1) copy temp (m : ℤ) (get_power B m)
        if (m : ℤ) % 2 = 1 then pr.1 else pr.2
      else
        let m := get_digits B mx
        let pr := helper B false (m + 1) copy temp (m : ℤ) (get_power B m)
        if (m : ℤ) % 2 = 1 then pr.1 else pr.2

/-- Specification-side description of one stable counting pass: the buckets
listed in increasing digit order, each bucket keeping input order.  The proofs
below show that both placement loops (`scatter` and `scatterBack`) produce
exactly this list. -/
def bucketsJoin (key : ℤ → ℕ) (nb : ℕ) (d : List ℤ) : List ℤ :=
  ((List.range nb).map fun v => d.filter fun x => decide (key x = v)).flatten

/-- Number of elements of `d` whose digit is `v`; the value the counting pass
stores in `counts[v]`. -/
def cntOf (key : ℤ → ℕ) (d : List ℤ) (v : ℕ) : ℕ :=
  (d.filter fun x => decide (key x = v)).length

/-- Weighted sum of the base-`B` digits of a non-negative `z` up to digit
index `m`, with weights `(2B)^k`; an auxiliary key used to reason about the
biased digits of negative mode. -/
def mkey (B : ℤ) : ℕ → ℤ → ℤ
  | 0, z => z % B
  | m + 1, z => z / B ^ (m + 1) % B * (2 * B) ^ (m + 1) + mkey B m z

/-- The constant `∑_{k ≤ m} B·(2B)^k`, the total bias added by negative mode
over digit indices `0..m`. -/
def Cbias (B : ℤ) : ℕ → ℤ
  | 0 => B
  | m + 1 => B * (2 * B) ^ (m + 1) + Cbias B m

/-- The number whose base-`2B` digits are the biased digits of `x` at place
values `B^0 .. B^m`.  Comparing `negKey` values is comparing the biased digit
strings lexicographically, which is what the MSD recursion sorts by in
negative mode. -/
def negKey (B : ℤ) : ℕ → ℤ → ℤ
  | 0, x => getDigit B true x 1
  | m + 1, x => getDigit B true x (B ^ (m + 1)) * (2 * B) ^ (m + 1) + negKey B m x

/-- The key the whole MSD recursion at top place value `B^m` sorts by:
`value mod B^(m+1)` without negative handling, the biased digit string with
it. -/
def levelKey (B : ℤ) (neg : Bool) (m : ℕ) (x : ℤ) : ℤ :=
  if neg then negKey B m x else x % B ^ (m + 1)

/-- The weight of the digit at place value `B^k` inside `levelKey`: digits are
in `[0, B)` without negative handling and in `[0, 2B)` with it. -/
def levelW (B : ℤ) (neg : Bool) (k : ℕ) : ℤ :=
  if neg then (2 * B) ^ k else B ^ k

/-- The buffer that holds a partition's sorted result after
`helper _ _ _ _ m (B^m)` returns: the scratch buffer when `m` is even, the
data buffer when `m` is odd (the call performs `m+1` buffer swaps). -/
def resultOf (m : ℤ) (pr : List ℤ × List ℤ) : List ℤ :=
  if m % 2 = 0 then pr.2 else pr.1

/-- The value range of a `w`-bit two's-complement element type. -/
def inRange (w : ℕ) (x : ℤ) : Prop := -(2 ^ (w - 1)) ≤ x ∧ x < 2 ^ (w - 1)

/-! ### Arithmetic facts about the digit functions -/

theorem cdiv_of_nonneg {a b : ℤ} (ha : 0 ≤ a) (hb : 0 ≤ b) : cdiv a b = a / b :=
  Int.tdiv_eq_ediv ha hb

theorem cmod_of_nonneg {a b : ℤ} (ha : 0 ≤ a) (hb : 0 ≤ b) : cmod a b = a % b :=
  Int.tmod_eq_emod ha hb

theorem cdiv_neg_neg {a b : ℤ} (ha : a ≤ 0) (hb : 0 ≤ b) : cdiv a (-b) = -a / b := by
  have h1 : cdiv a (-b) = (-a).tdiv b := by
    simp only [cdiv, Int.tdiv_neg, Int.neg_tdiv]
  rw [h1, Int.tdiv_eq_ediv (by omega) hb]

theorem cdiv_neg_pos {a b : ℤ} (ha : a ≤ 0) (hb : 0 ≤ b) : cdiv a b = -((-a) / b) := by
  have h1 : cdiv a b = -((-a).tdiv b) := by
    simp only [cdiv, Int.neg_tdiv, neg_neg]
  rw [h1, Int.tdiv_eq_ediv (by omega) hb]

theorem get_power_eq (B : ℤ) (n : ℕ) : get_power B n = B ^ n := by
  induction n with
  | zero => rfl
  | succ n ih => rw [get_power, ih, pow_succ]

theorem getDigit_false_eq {B p x : ℤ} (hB : 0 < B) (hx : 0 ≤ x) (hp : 0 < p) :
    getDigit B false x p = x / p % B := by
  unfold getDigit
  rw [if_neg Bool.false_ne_true, cdiv_of_nonneg hx (by omega),
    cmod_of_nonneg (Int.ediv_nonneg hx (by omega)) (by omega)]

theorem getDigitCg_eq {B p x : ℤ} (hB : 0 < B) (hx : 0 ≤ x) (hp : 0 < p) :
    getDigitCg B x p = x / p % B := by
  unfold getDigitCg
  rw [cdiv_of_nonneg hx (by omega), cmod_of_nonneg (Int.ediv_nonneg hx (by omega)) (by omega)]

theorem getDigit_true_of_nonneg {B p x : ℤ} (hB : 0 < B) (hx : 0 ≤ x) (hp : 0 < p) :
    getDigit B true x p = B + x / p % B := by
  unfold getDigit
  rw [if_pos rfl, if_neg (by omega), cdiv_of_nonneg hx (by omega),
    cmod_of_nonneg (Int.ediv_nonneg hx (by omega)) (by omega)]

theorem getDigit_true_of_neg {B p x : ℤ} (hB : 0 < B) (hx : x < 0) (hp : 0 < p) :
    getDigit B true x p = B - (-x) / p % B := by
  unfold getDigit
  rw [if_pos rfl, if_pos hx, cdiv_neg_neg (by omega) (by omega),
    cmod_of_nonneg (Int.ediv_nonneg (by omega) (by omega)) (by omega)]

theorem getDigit_false_range {B p x : ℤ} (hB : 0 < B) (hx : 0 ≤ x) (hp : 0 < p) :
    0 ≤ getDigit B false x p ∧ getDigit B false x p < B := by
  rw [getDigit_false_eq hB hx hp]
  exact ⟨Int.emod_nonneg _ (by omega), Int.emod_lt_of_pos _ hB⟩

theorem getDigit_true_range {B p : ℤ} (x : ℤ) (hB : 0 < B) (hp : 0 < p) :
    1 ≤ getDigit B true x p ∧ getDigit B true x p ≤ 2 * B - 1 := by
  rcases lt_or_le x 0 with hx | hx
  · rw [getDigit_true_of_neg hB hx hp]
    have h1 : 0 ≤ (-x) / p % B := Int.emod_nonneg _ (by omega)
    have h2 : (-x) / p % B < B := Int.emod_lt_of_pos _ hB
    omega
  · rw [getDigit_true_of_nonneg hB hx hp]
    have h1 : 0 ≤ x / p % B := Int.emod_nonneg _ (by omega)
    have h2 : x / p % B < B := Int.emod_lt_of_pos _ hB
    omega

/-- Splitting a euclidean remainder at a smaller place value:
`x % (a*b) = (x/a % b) * a + x % a`. -/
theorem emod_mul_split (x : ℤ) {a b : ℤ} (ha : 0 < a) (hb : 0 < b) :
    x % (a * b) = x / a % b * a + x % a := by
  have hx1 : x = a * (x / a) + x % a := (Int.ediv_add_emod x a).symm
  have hx2 : x / a = b * (x / a / b) + x / a % b := (Int.ediv_add_emod (x / a) b).symm
  have hr1 : 0 ≤ x % a := Int.emod_nonneg _ (by omega)
  have hr1' : x % a < a := Int.emod_lt_of_pos _ ha
  have hr2 : 0 ≤ x / a % b := Int.emod_nonneg _ (by omega)
  have hr2' : x / a % b < b := Int.emod_lt_of_pos _ hb
  have key : x / a % b * a + x % a + a * b * (x / a / b) = x := by
    calc x / a % b * a + x % a + a * b * (x / a / b)
        = a * (b * (x / a / b) + x / a % b) + x % a := by ring
      _ = a * (x / a) + x % a := by rw [← hx2]
      _ = x := by rw [← hx1]
  have hub : x / a % b * a + x % a < a * b := by nlinarith
  have hlb : 0 ≤ x / a % b * a + x % a := by positivity
  exact ((Int.ediv_emod_unique (by positivity)).mpr ⟨key, hlb, hub⟩).2

/-! ### The counting pass -/

theorem cntOf_nil (key : ℤ → ℕ) (v : ℕ) : cntOf key [] v = 0 := rfl

theorem cntOf_cons (key : ℤ → ℕ) (x : ℤ) (d : List ℤ) (v : ℕ) :
    cntOf key (x :: d) v = (if key x = v then 1 else 0) + cntOf key d v := by
  unfold cntOf
  rw [List.filter_cons]
  by_cases h : key x = v
  · have hd : decide (key x = v) = true := by simp [h]
    rw [hd, if_pos rfl, if_pos h, List.length_cons]
    omega
  · simp [h]

theorem cntOf_append (key : ℤ → ℕ) (a b : List ℤ) (v : ℕ) :
    cntOf key (a ++ b) v = cntOf key a v + cntOf key b v := by
  unfold cntOf
  rw [List.filter_append, List.length_append]

theorem countsOf_go (key : ℤ → ℕ) (d : List ℤ) :
    ∀ (c₀ : ℕ → ℕ) (v : ℕ),
      (d.foldl (fun c x => bump c (key x)) c₀) v = c₀ v + cntOf key d v := by
  induction d with
  | nil => intro c₀ v; simp [cntOf]
  | cons x d ih =>
    intro c₀ v
    rw [List.foldl_cons, ih, cntOf_cons]
    unfold bump
    by_cases h : key x = v
    · rw [if_pos h, if_pos h.symm]
      omega
    · rw [if_neg h, if_neg fun hvk => h hvk.symm]
      omega

theorem countsOf_apply (key : ℤ → ℕ) (d : List ℤ) (v : ℕ) :
    countsOf key d v = cntOf key d v := by
  unfold countsOf
  rw [countsOf_go]
  omega

theorem positionsOf_zero (c : ℕ → ℕ) : positionsOf c 0 = 0 := rfl

theorem positionsOf_succ (c : ℕ → ℕ) (v : ℕ) :
    positionsOf c (v + 1) = positionsOf c v + c v := by
  unfold positionsOf
  rw [List.range_succ, List.map_append, List.sum_append]
  simp

theorem positionsOf_mono (c : ℕ → ℕ) {v w : ℕ} (h : v ≤ w) :
    positionsOf c v ≤ positionsOf c w := by
  induction w, h using Nat.le_induction with
  | base => exact le_refl _
  | succ w hw ih => rw [positionsOf_succ]; omega

theorem positionsOf_congr {c c' : ℕ → ℕ} (h : ∀ v, c v = c' v) (nb : ℕ) :
    positionsOf c nb = positionsOf c' nb := by
  unfold positionsOf
  rw [List.map_congr_left fun v _ => h v]

theorem sum_ite_range (k nb c : ℕ) :
    ((List.range nb).map fun v => if k = v then c else 0).sum = if k < nb then c else 0 := by
  induction nb with
  | zero => simp
  | succ nb ih =>
    rw [List.range_succ, List.map_append, List.sum_append, ih]
    by_cases h : k = nb
    · subst h
      rw [if_neg (lt_irrefl k), if_pos (Nat.lt_succ_self k)]
      simp
    · by_cases h2 : k < nb
      · rw [if_pos h2, if_pos (by omega)]
        simp [h]
      · rw [if_neg h2, if_neg (by omega)]
        simp [h]

theorem sum_map_add {α : Type} (l : List α) (f g : α → ℕ) :
    (l.map fun a => f a + g a).sum = (l.map f).sum + (l.map g).sum := by
  induction l with
  | nil => rfl
  | cons x l ih => simp [ih]; omega

theorem sum_cntOf_total (key : ℤ → ℕ) {nb : ℕ} (d : List ℤ) (h : ∀ x ∈ d, key x < nb) :
    ((List.range nb).map (cntOf key d)).sum = d.length := by
  induction d with
  | nil =>
    rw [List.length_nil]
    apply List.sum_eq_zero
    intro y hy
    obtain ⟨v, _, rfl⟩ := List.mem_map.mp hy
    rfl
  | cons x d ih =>
    have hx : key x < nb := h x (by simp)
    have hd : ∀ y ∈ d, key y < nb := fun y hy => h y (by simp [hy])
    have hcongr : (List.range nb).map (cntOf key (x :: d))
        = (List.range nb).map fun v => (if key x = v then 1 else 0) + cntOf key d v :=
      List.map_congr_left fun v _ => cntOf_cons key x d v
    rw [hcongr, sum_map_add, sum_ite_range, ih hd, if_pos hx, List.length_cons]
    omega

theorem positionsOf_total (key : ℤ → ℕ) {nb : ℕ} (d : List ℤ) (h : ∀ x ∈ d, key x < nb) :
    positionsOf (cntOf key d) nb = d.length := by
  unfold positionsOf
  exact sum_cntOf_total key d h

/-! ### The canonical bucket decomposition -/

theorem bucketsJoin_succ (key : ℤ → ℕ) (nb : ℕ) (d : List ℤ) :
    bucketsJoin key (nb + 1) d
      = bucketsJoin key nb d ++ d.filter fun x => decide (key x = nb) := by
  unfold bucketsJoin
  rw [List.range_succ, List.map_append, List.flatten_append]
  simp

theorem length_bucketsJoin (key : ℤ → ℕ) (nb : ℕ) (d : List ℤ) :
    (bucketsJoin key nb d).length = positionsOf (cntOf key d) nb := by
  unfold bucketsJoin positionsOf
  rw [List.length_flatten, List.map_map]
  rfl

theorem bucketsJoin_getElem (key : ℤ → ℕ) (d : List ℤ) :
    ∀ {nb v : ℕ}, v < nb → ∀ {j : ℕ}, j < cntOf key d v →
      (bucketsJoin key nb d)[positionsOf (cntOf key d) v + j]?
        = (d.filter fun x => decide (key x = v))[j]? := by
  intro nb
  induction nb with
  | zero => omega
  | succ nb ih =>
    intro v hv j hj
    rw [bucketsJoin_succ]
    rcases lt_or_ge v nb with h | h
    · rw [List.getElem?_append_left, ih h hj]
      rw [length_bucketsJoin]
      have h1 : positionsOf (cntOf key d) v + j < positionsOf (cntOf key d) (v + 1) := by
        rw [positionsOf_succ]; omega
      exact lt_of_lt_of_le h1 (positionsOf_mono _ h)
    · have hv' : v = nb := by omega
      subst hv'
      rw [List.getElem?_append_right (by rw [length_bucketsJoin]; omega)]
      rw [length_bucketsJoin]
      congr 1
      omega

theorem pos_tiling (c : ℕ → ℕ) :
    ∀ {nb n : ℕ}, n < positionsOf c nb →
      ∃ v, v < nb ∧ ∃ j, j < c v ∧ n = positionsOf c v + j := by
  intro nb
  induction nb with
  | zero => intro n hn; rw [positionsOf_zero] at hn; omega
  | succ nb ih =>
    intro n hn
    rw [positionsOf_succ] at hn
    rcases lt_or_ge n (positionsOf c nb) with h | h
    · obtain ⟨v, hv, j, hj, rfl⟩ := ih h
      exact ⟨v, by omega, j, hj, rfl⟩
    · exact ⟨nb, by omega, n - positionsOf c nb, by omega, by omega⟩

theorem bucketsJoin_slice (key : ℤ → ℕ) {nb : ℕ} (d : List ℤ)
    {v : ℕ} (hv : v < nb) :
    ((bucketsJoin key nb d).drop (positionsOf (cntOf key d) v)).take (cntOf key d v)
      = d.filter fun x => decide (key x = v) := by
  apply List.ext_getElem?
  intro j
  rw [List.getElem?_take]
  by_cases hj : j < cntOf key d v
  · rw [if_pos hj, List.getElem?_drop, bucketsJoin_getElem key d hv hj]
  · rw [if_neg hj]
    symm
    exact List.getElem?_eq_none (by unfold cntOf at hj; omega)

theorem bucketsJoin_perm (key : ℤ → ℕ) {nb : ℕ} (d : List ℤ) (h : ∀ x ∈ d, key x < nb) :
    (bucketsJoin key nb d).Perm d := by
  rw [List.perm_iff_count]
  intro a
  unfold bucketsJoin
  rw [List.count_flatten, List.map_map]
  by_cases ha : a ∈ d
  · have hk : key a < nb := h a ha
    have hcount : ∀ v ∈ List.range nb,
        (List.count a ∘ fun v => d.filter fun x => decide (key x = v)) v
          = if key a = v then List.count a d else 0 := by
      intro v _
      by_cases hv : key a = v
      · rw [if_pos hv, Function.comp_apply, List.count_filter (by simp [hv])]
      · rw [if_neg hv, Function.comp_apply, List.count_eq_zero.mpr]
        intro hmem
        exact hv (by simpa using List.of_mem_filter hmem)
    rw [List.map_congr_left hcount, sum_ite_range, if_pos hk]
  · have hcount : ∀ v ∈ List.range nb,
        (List.count a ∘ fun v => d.filter fun x => decide (key x = v)) v = 0 := by
      intro v _
      rw [Function.comp_apply, List.count_eq_zero.mpr]
      intro hmem
      exact ha (List.mem_of_mem_filter hmem)
    rw [List.map_congr_left hcount, List.count_eq_zero_of_not_mem ha]
    simp

/-! ### Correctness of the forward placement loop of `helper` -/

theorem scatter_go (key : ℤ → ℕ) {nb : ℕ} (d : List ℤ) (hk : ∀ x ∈ d, key x < nb) :
    ∀ (b : List ℤ), ∀ (a t : List ℤ) (cp : ℕ → ℕ), d = a ++ b →
      t.length = d.length →
      (∀ v, v < nb → cp v = positionsOf (cntOf key d) v + cntOf key a v) →
      (∀ v, v < nb → ∀ j, j < cntOf key a v →
        t[positionsOf (cntOf key d) v + j]? = (a.filter fun x => decide (key x = v))[j]?) →
      (b.foldl (scatterStep key) (t, cp)).1.length = d.length ∧
      ∀ v, v < nb → ∀ j, j < cntOf key d v →
        (b.foldl (scatterStep key) (t, cp)).1[positionsOf (cntOf key d) v + j]?
          = (d.filter fun x => decide (key x = v))[j]? := by
  intro b
  induction b with
  | nil =>
    intro a t cp heq ht hcp hreg
    have ha : a = d := by rw [heq, List.append_nil]
    subst ha
    exact ⟨ht, hreg⟩
  | cons x b ih =>
    intro a t cp heq ht hcp hreg
    have hxd : x ∈ d := by rw [heq]; simp
    have hkx : key x < nb := hk x hxd
    have hsplit : ∀ v, cntOf key d v = cntOf key a v + cntOf key (x :: b) v := by
      intro v
      rw [heq, cntOf_append]
    have hcnt_lt : cntOf key a (key x) < cntOf key d (key x) := by
      rw [hsplit (key x), cntOf_cons, if_pos rfl]
      omega
    have hposlt : ∀ v, v < nb →
        positionsOf (cntOf key d) v + cntOf key d v ≤ d.length := by
      intro v hv
      have h1 : positionsOf (cntOf key d) (v + 1) ≤ positionsOf (cntOf key d) nb :=
        positionsOf_mono _ hv
      rw [positionsOf_succ] at h1
      rw [← positionsOf_total key d hk]
      exact h1
    have hwrite_lt : cp (key x) < t.length := by
      rw [hcp (key x) hkx, ht]
      have := hposlt (key x) hkx
      omega
    rw [List.foldl_cons]
    refine ih (a ++ [x]) (t.set (cp (key x)) x) (bump cp (key x)) ?_ ?_ ?_ ?_
    · rw [heq, List.append_assoc, List.singleton_append]
    · rw [List.length_set, ht]
    · intro v hv
      unfold bump
      rw [cntOf_append, cntOf_cons, cntOf_nil]
      by_cases hvk : v = key x
      · rw [if_pos hvk, hcp v hv, hvk, if_pos rfl]
        omega
      · rw [if_neg hvk, hcp v hv, if_neg fun hh => hvk hh.symm]
        omega
    · intro v hv j hj
      rw [cntOf_append, cntOf_cons, cntOf_nil] at hj
      have hfilx : List.filter (fun y => decide (key y = v)) (a ++ [x])
          = List.filter (fun y => decide (key y = v)) a
            ++ List.filter (fun y => decide (key y = v)) [x] :=
        List.filter_append _ _
      by_cases hvk : v = key x
      · have hkv : key x = v := hvk.symm
        rw [if_pos hkv] at hj
        have hfx : List.filter (fun y => decide (key y = v)) [x] = [x] := by
          rw [List.filter_cons]
          simp [hkv]
        rcases Nat.lt_or_ge j (cntOf key a v) with hjlt | hjge
        · have hne : cp (key x) ≠ positionsOf (cntOf key d) v + j := by
            rw [hcp (key x) hkx, ← hvk]
            omega
          rw [List.getElem?_set_ne hne, hfilx, hfx,
            List.getElem?_append_left (by unfold cntOf at hjlt; exact hjlt)]
          exact hreg v hv j hjlt
        · have hje : j = cntOf key a v := by omega
          subst hje
          have hidx : cp (key x) = positionsOf (cntOf key d) v + cntOf key a v := by
            rw [hcp (key x) hkx, ← hvk]
          rw [← hidx, List.getElem?_set_self hwrite_lt, hfilx, hfx,
            List.getElem?_append_right (by unfold cntOf; omega)]
          unfold cntOf
          simp
      · rw [if_neg (fun hh : key x = v => hvk hh.symm), Nat.add_zero] at hj
        have hfx : List.filter (fun y => decide (key y = v)) [x] = [] := by
          rw [List.filter_cons]
          have hne : ¬ (key x = v) := fun hh => hvk hh.symm
          simp [hne]
        have hcnta : cntOf key a v ≤ cntOf key d v := by
          rw [hsplit v]
          omega
        have hne : cp (key x) ≠ positionsOf (cntOf key d) v + j := by
          rw [hcp (key x) hkx]
          rcases Nat.lt_or_ge v (key x) with hvlt | hvge
          · have h1 : positionsOf (cntOf key d) (v + 1) ≤ positionsOf (cntOf key d) (key x) :=
              positionsOf_mono _ hvlt
            rw [positionsOf_succ] at h1
            omega
          · have hklt : key x < v := by omega
            have h1 : positionsOf (cntOf key d) (key x + 1) ≤ positionsOf (cntOf key d) v :=
              positionsOf_mono _ hklt
            rw [positionsOf_succ] at h1
            omega
        rw [List.getElem?_set_ne hne, hfilx, hfx, List.append_nil]
        exact hreg v hv j hj

theorem scatter_eq (key : ℤ → ℕ) {nb : ℕ} (d t : List ℤ) (hk : ∀ x ∈ d, key x < nb)
    (ht : t.length = d.length) :
    scatter key d t = bucketsJoin key nb d := by
  unfold scatter
  obtain ⟨hlen, hreg⟩ :=
    scatter_go key d hk d [] t (positionsOf (countsOf key d)) rfl ht
      (fun v _ => by
        rw [positionsOf_congr (countsOf_apply key d), cntOf_nil]
        omega)
      (fun v _ j hj => by rw [cntOf_nil] at hj; omega)
  apply List.ext_getElem?
  intro n
  rcases Nat.lt_or_ge n d.length with hn | hn
  · have hn' : n < positionsOf (cntOf key d) nb := by
      rw [positionsOf_total key d hk]
      exact hn
    obtain ⟨v, hv, j, hj, rfl⟩ := pos_tiling (cntOf key d) hn'
    rw [hreg v hv j hj, bucketsJoin_getElem key d hv hj]
  · rw [List.getElem?_eq_none (by omega), List.getElem?_eq_none]
    rw [length_bucketsJoin, positionsOf_total key d hk]
    exact hn

/-! ### Correctness of the backward placement loop of `counting_sort` -/

theorem bucketsJoin_nil (key : ℤ → ℕ) (nb : ℕ) : bucketsJoin key nb [] = [] := by
  induction nb with
  | zero => rfl
  | succ nb ih => rw [bucketsJoin_succ, ih, List.filter_nil, List.append_nil]

theorem accumEnds_go (c : ℕ → ℕ) :
    ∀ (k j : ℕ),
      ((List.range' 1 k).foldl accumStep c) j
        = if 1 ≤ j ∧ j ≤ k then positionsOf c (j + 1) else c j := by
  intro k
  induction k with
  | zero =>
    intro j
    rw [if_neg (by omega)]
    rfl
  | succ k ih =>
    intro j
    rw [List.range'_concat, List.foldl_append, List.foldl_cons, List.foldl_nil]
    have h1k : 1 + 1 * k = k + 1 := by omega
    rw [h1k]
    set A := (List.range' 1 k).foldl accumStep c with hA
    have hAk : A k = positionsOf c (k + 1) := by
      rw [ih k]
      rcases Nat.eq_zero_or_pos k with h0 | hpos
      · subst h0
        rw [if_neg (by omega), positionsOf_succ, positionsOf_zero]
        omega
      · rw [if_pos (by omega)]
    show (if j = k + 1 then A (k + 1 - 1) + A (k + 1) else A j)
      = if 1 ≤ j ∧ j ≤ k + 1 then positionsOf c (j + 1) else c j
    by_cases hj : j = k + 1
    · subst hj
      rw [if_pos rfl, if_pos (by omega)]
      have hsub : k + 1 - 1 = k := by omega
      rw [hsub, hAk, ih (k + 1), if_neg (by omega), positionsOf_succ,
        positionsOf_succ, positionsOf_succ]
    · rw [if_neg hj, ih j]
      by_cases h1 : 1 ≤ j ∧ j ≤ k
      · rw [if_pos h1, if_pos (by omega)]
      · rw [if_neg h1, if_neg (by omega)]

theorem accumEnds_apply (c : ℕ → ℕ) {nb v : ℕ} (hv : v < nb) :
    accumEnds c nb v = positionsOf c (v + 1) := by
  unfold accumEnds
  rw [accumEnds_go c (nb - 1) v]
  rcases Nat.eq_zero_or_pos v with hv0 | hvpos
  · subst hv0
    rw [if_neg (by omega), positionsOf_succ, positionsOf_zero]
    omega
  · rw [if_pos (by omega)]

theorem scatterBack_go (key : ℤ → ℕ) {nb : ℕ} (d : List ℤ) (hk : ∀ x ∈ d, key x < nb) :
    ∀ (u s t : List ℤ) (cp : ℕ → ℕ), d = u.reverse ++ s →
      t.length = d.length →
      (∀ v, v < nb → cp v = positionsOf (cntOf key d) v + cntOf key u.reverse v) →
      (∀ v, v < nb → ∀ j, j < cntOf key s v →
        t[positionsOf (cntOf key d) v + cntOf key u.reverse v + j]?
          = (s.filter fun x => decide (key x = v))[j]?) →
      (u.foldl (scatterBackStep key) (t, cp)).1.length = d.length ∧
      ∀ v, v < nb → ∀ j, j < cntOf key d v →
        (u.foldl (scatterBackStep key) (t, cp)).1[positionsOf (cntOf key d) v + j]?
          = (d.filter fun x => decide (key x = v))[j]? := by
  intro u
  induction u with
  | nil =>
    intro s t cp heq ht hcp hreg
    have hs : s = d := by rw [heq, List.reverse_nil, List.nil_append]
    subst hs
    refine ⟨ht, fun v hv j hj => ?_⟩
    have := hreg v hv j hj
    rw [List.reverse_nil, cntOf_nil, Nat.add_zero] at this
    exact this
  | cons y u ih =>
    intro s t cp heq ht hcp hreg
    have heq' : d = u.reverse ++ (y :: s) := by
      rw [heq, List.reverse_cons, List.append_assoc, List.singleton_append]
    have hyd : y ∈ d := by rw [heq']; simp
    have hky : key y < nb := hk y hyd
    have hsplit : ∀ v, cntOf key d v
        = cntOf key u.reverse v + ((if key y = v then 1 else 0) + cntOf key s v) := by
      intro v
      rw [heq', cntOf_append, cntOf_cons]
    have hsplit_old : ∀ v, cntOf key (y :: u).reverse v
        = cntOf key u.reverse v + (if key y = v then 1 else 0) := by
      intro v
      rw [List.reverse_cons, cntOf_append, cntOf_cons, cntOf_nil]
      omega
    have hposlt : ∀ v, v < nb →
        positionsOf (cntOf key d) v + cntOf key d v ≤ d.length := by
      intro v hv
      have h1 : positionsOf (cntOf key d) (v + 1) ≤ positionsOf (cntOf key d) nb :=
        positionsOf_mono _ hv
      rw [positionsOf_succ] at h1
      rw [← positionsOf_total key d hk]
      exact h1
    have hcpy : cp (key y) = positionsOf (cntOf key d) (key y) + cntOf key u.reverse (key y)
        + 1 := by
      rw [hcp (key y) hky, hsplit_old (key y), if_pos rfl]
      omega
    have hwrite : cp (key y) - 1
        = positionsOf (cntOf key d) (key y) + cntOf key u.reverse (key y) := by
      omega
    have hwrite_lt : cp (key y) - 1 < t.length := by
      rw [ht, hwrite]
      have h1 := hposlt (key y) hky
      have h2 := hsplit (key y)
      rw [if_pos rfl] at h2
      omega
    rw [List.foldl_cons]
    refine ih (y :: s) (t.set (cp (key y) - 1) y)
      (fun j => if j = key y then cp (key y) - 1 else cp j) heq'
      (by rw [List.length_set, ht]) ?_ ?_
    · intro v hv
      show (if v = key y then cp (key y) - 1 else cp v)
        = positionsOf (cntOf key d) v + cntOf key u.reverse v
      by_cases hvk : v = key y
      · rw [if_pos hvk, hvk, hwrite]
      · rw [if_neg hvk, hcp v hv, hsplit_old v,
          if_neg (fun hh : key y = v => hvk hh.symm)]
        omega
    · intro v hv j hj
      rw [cntOf_cons] at hj
      by_cases hvk : v = key y
      · have hkv : key y = v := hvk.symm
        rw [if_pos hkv] at hj
        have hfil : List.filter (fun z => decide (key z = v)) (y :: s)
            = y :: List.filter (fun z => decide (key z = v)) s := by
          rw [List.filter_cons]
          simp [hkv]
        rcases Nat.eq_zero_or_pos j with hj0 | hjpos
        · subst hj0
          rw [Nat.add_zero, hfil, hvk, ← hwrite, List.getElem?_set_self hwrite_lt]
          simp
        · obtain ⟨j', rfl⟩ : ∃ j', j = j' + 1 := ⟨j - 1, by omega⟩
          have hidx : positionsOf (cntOf key d) v + cntOf key u.reverse v + (j' + 1)
              = positionsOf (cntOf key d) v + cntOf key (y :: u).reverse v + j' := by
            rw [hsplit_old v, if_pos hkv]
            omega
          have hne : cp (key y) - 1
              ≠ positionsOf (cntOf key d) v + cntOf key u.reverse v + (j' + 1) := by
            rw [hwrite, hvk]
            omega
          rw [hidx] at hne ⊢
          rw [List.getElem?_set_ne hne, hfil]
          have hstep := hreg v hv j' (by omega)
          rw [hstep]
          simp
      · rw [if_neg (fun hh : key y = v => hvk hh.symm), Nat.zero_add] at hj
        have hfil : List.filter (fun z => decide (key z = v)) (y :: s)
            = List.filter (fun z => decide (key z = v)) s := by
          rw [List.filter_cons]
          have hne2 : ¬ (key y = v) := fun hh => hvk hh.symm
          simp [hne2]
        have hcnew : cntOf key (y :: u).reverse v = cntOf key u.reverse v := by
          rw [hsplit_old v, if_neg (fun hh : key y = v => hvk hh.symm)]
          omega
        have hbound : cntOf key u.reverse v + cntOf key s v ≤ cntOf key d v := by
          have := hsplit v
          omega
        have hne : cp (key y) - 1
            ≠ positionsOf (cntOf key d) v + cntOf key u.reverse v + j := by
          rw [hwrite]
          have hky_cnt : cntOf key u.reverse (key y) < cntOf key d (key y) := by
            have := hsplit (key y)
            rw [if_pos rfl] at this
            omega
          rcases Nat.lt_or_ge v (key y) with hvlt | hvge
          · have h1 : positionsOf (cntOf key d) (v + 1) ≤ positionsOf (cntOf key d) (key y) :=
              positionsOf_mono _ hvlt
            rw [positionsOf_succ] at h1
            omega
          · have hklt : key y < v := by omega
            have h1 : positionsOf (cntOf key d) (key y + 1) ≤ positionsOf (cntOf key d) v :=
              positionsOf_mono _ hklt
            rw [positionsOf_succ] at h1
            omega
        rw [List.getElem?_set_ne hne, hfil]
        have hstep := hreg v hv j hj
        rw [hcnew] at hstep
        exact hstep

theorem scatterBack_eq (key : ℤ → ℕ) {nb : ℕ} (d t : List ℤ)
    (hk : ∀ x ∈ d, key x < nb) (ht : t.length = d.length) :
    scatterBack key d t (accumEnds (countsOf key d) nb) = bucketsJoin key nb d := by
  unfold scatterBack
  obtain ⟨hlen, hreg⟩ :=
    scatterBack_go key d hk d.reverse [] t (accumEnds (countsOf key d) nb)
      (by rw [List.reverse_reverse, List.append_nil]) ht
      (fun v hv => by
        rw [accumEnds_apply (countsOf key d) hv, List.reverse_reverse,
          positionsOf_congr (countsOf_apply key d), positionsOf_succ])
      (fun v hv j hj => by rw [cntOf_nil] at hj; omega)
  apply List.ext_getElem?
  intro n
  rcases Nat.lt_or_ge n d.length with hn | hn
  · have hn' : n < positionsOf (cntOf key d) nb := by
      rw [positionsOf_total key d hk]
      exact hn
    obtain ⟨v, hv, j, hj, rfl⟩ := pos_tiling (cntOf key d) hn'
    rw [hreg v hv j hj, bucketsJoin_getElem key d hv hj]
  · rw [List.getElem?_eq_none (by omega), List.getElem?_eq_none]
    rw [length_bucketsJoin, positionsOf_total key d hk]
    exact hn

theorem keyCg_lt {B exp : ℤ} (hB : 2 ≤ B) (hexp : 1 ≤ exp) {x : ℤ} (hx : 0 ≤ x) :
    (getDigitCg B x exp).toNat < B.toNat := by
  rw [getDigitCg_eq (by omega) hx (by omega)]
  have h1 := Int.emod_nonneg (x / exp) (show B ≠ 0 by omega)
  have h2 := Int.emod_lt_of_pos (x / exp) (show 0 < B by omega)
  omega

theorem counting_sort_eq {B : ℤ} (hB : 2 ≤ B) (d : List ℤ) {exp : ℤ} (hexp : 1 ≤ exp)
    (hd : ∀ x ∈ d, 0 ≤ x) :
    counting_sort B d exp = bucketsJoin (fun x => (getDigitCg B x exp).toNat) B.toNat d := by
  unfold counting_sort
  have hk : ∀ x ∈ d, (getDigitCg B x exp).toNat < B.toNat :=
    fun x hxd => keyCg_lt hB hexp (hd x hxd)
  by_cases hnil : d = []
  · rw [if_pos hnil, hnil, bucketsJoin_nil]
  · rw [if_neg hnil]
    by_cases hlen : d.length < 2
    · rw [if_pos hlen]
      obtain ⟨x, rfl⟩ : ∃ x, d = [x] := by
        rcases d with _ | ⟨x, _ | ⟨y, d⟩⟩
        · exact absurd rfl hnil
        · exact ⟨x, rfl⟩
        · exfalso
          simp only [List.length_cons] at hlen
          omega
      exact (List.perm_singleton.mp (bucketsJoin_perm _ _ hk)).symm
    · rw [if_neg hlen]
      exact scatterBack_eq _ d _ hk (List.length_replicate _ _)

/-! ### Sortedness of a bucket decomposition -/

theorem pairwise_trivial (l : List ℤ) : List.Pairwise (fun _ _ => (0:ℤ) ≤ 0) l := by
  induction l with
  | nil => exact List.Pairwise.nil
  | cons x l ih => exact List.Pairwise.cons (fun _ _ => le_refl 0) ih

theorem perm_flatten_congr {l : List ℕ} {g f : ℕ → List ℤ}
    (h : ∀ v ∈ l, (g v).Perm (f v)) :
    ((l.map g).flatten).Perm ((l.map f).flatten) := by
  induction l with
  | nil => exact List.Perm.refl _
  | cons v l ih =>
    rw [List.map_cons, List.map_cons, List.flatten_cons, List.flatten_cons]
    exact (h v (by simp)).append (ih fun w hw => h w (by simp [hw]))

theorem sorted_flatten_buckets (K K' : ℤ → ℤ) (key : ℤ → ℕ) (W : ℤ) (nb : ℕ)
    (f : ℕ → List ℤ)
    (hmem : ∀ v, v < nb → ∀ x ∈ f v, key x = v)
    (hdec : ∀ v, v < nb → ∀ x ∈ f v,
      K' x = ((key x : ℕ) : ℤ) * W + K x ∧ 0 ≤ K x ∧ K x < W)
    (hsor : ∀ v, v < nb → (f v).Sorted fun a b => K a ≤ K b) :
    (((List.range nb).map f).flatten).Sorted fun a b => K' a ≤ K' b := by
  rw [List.Sorted, List.pairwise_flatten]
  constructor
  · intro l hl
    obtain ⟨v, hv, rfl⟩ := List.mem_map.mp hl
    have hvnb : v < nb := List.mem_range.mp hv
    refine List.Pairwise.imp_of_mem ?_ (hsor v hvnb)
    intro a b ha hb hK
    obtain ⟨hda, _, haW⟩ := hdec v hvnb a ha
    obtain ⟨hdb, hb0, _⟩ := hdec v hvnb b hb
    rw [hda, hdb, hmem v hvnb a ha, hmem v hvnb b hb]
    omega
  · rw [List.pairwise_map]
    refine List.Pairwise.imp_of_mem ?_ (List.pairwise_lt_range nb)
    intro v w hvmem hwmem hvw x hx y hy
    have hv := List.mem_range.mp hvmem
    have hw := List.mem_range.mp hwmem
    obtain ⟨hdx, hx0, hxW⟩ := hdec v hv x hx
    obtain ⟨hdy, hy0, hyW⟩ := hdec w hw y hy
    rw [hdx, hdy, hmem v hv x hx, hmem w hw y hy]
    have hvw' : (v : ℤ) + 1 ≤ (w : ℤ) := by exact_mod_cast hvw
    have hW : 0 < W := by omega
    nlinarith

/-! ### The keys the MSD recursion sorts by -/

theorem negKey_succ (B : ℤ) (m : ℕ) (x : ℤ) :
    negKey B (m + 1) x
      = getDigit B true x (B ^ (m + 1)) * (2 * B) ^ (m + 1) + negKey B m x := rfl

theorem negKey_bound {B : ℤ} (hB : 2 ≤ B) (m : ℕ) (x : ℤ) :
    0 ≤ negKey B m x ∧ negKey B m x < (2 * B) ^ (m + 1) := by
  induction m with
  | zero =>
    have h := getDigit_true_range x (show (0:ℤ) < B by omega) (show (0:ℤ) < 1 by omega)
    have : negKey B 0 x = getDigit B true x 1 := rfl
    rw [this, pow_one]
    omega
  | succ m ih =>
    have hd := getDigit_true_range x (show (0:ℤ) < B by omega)
      (show (0:ℤ) < B ^ (m + 1) by positivity)
    rw [negKey_succ]
    have hW : 0 < (2 * B) ^ (m + 1) := by positivity
    have hpow : (2 * B) ^ (m + 1 + 1) = (2 * B) ^ (m + 1) * (2 * B) := pow_succ _ _
    constructor
    · nlinarith [ih.1, hd.1]
    · nlinarith [ih.2, hd.2]

theorem keyMSD_lt {B p : ℤ} (hB : 2 ≤ B) (hp : 1 ≤ p) (neg : Bool) {x : ℤ}
    (hx : neg = false → 0 ≤ x) :
    (getDigit B neg x p).toNat < (2 * B).toNat := by
  cases neg
  · have h := getDigit_false_range (show (0:ℤ) < B by omega) (hx rfl)
      (show (0:ℤ) < p by omega)
    omega
  · have h := getDigit_true_range x (show (0:ℤ) < B by omega) (show (0:ℤ) < p by omega)
    omega

theorem levelKey_zero_eq {B : ℤ} (hB : 2 ≤ B) (neg : Bool) {x : ℤ}
    (hx : neg = false → 0 ≤ x) :
    levelKey B neg 0 x = ((getDigit B neg x 1).toNat : ℤ) := by
  cases neg
  · have h := getDigit_false_range (show (0:ℤ) < B by omega) (hx rfl)
      (show (0:ℤ) < 1 by omega)
    rw [levelKey, if_neg Bool.false_ne_true, Int.toNat_of_nonneg h.1,
      getDigit_false_eq (by omega) (hx rfl) (by omega), pow_one, Int.ediv_one]
  · have h := getDigit_true_range x (show (0:ℤ) < B by omega) (show (0:ℤ) < 1 by omega)
    rw [levelKey, if_pos rfl, Int.toNat_of_nonneg (by omega)]
    rfl

theorem levelKey_succ_decomp {B : ℤ} (hB : 2 ≤ B) (neg : Bool) (m : ℕ) {x : ℤ}
    (hx : neg = false → 0 ≤ x) :
    levelKey B neg (m + 1) x
      = ((getDigit B neg x (B ^ (m + 1))).toNat : ℤ) * levelW B neg (m + 1)
          + levelKey B neg m x
      ∧ 0 ≤ levelKey B neg m x ∧ levelKey B neg m x < levelW B neg (m + 1) := by
  cases neg
  · have hx0 : 0 ≤ x := hx rfl
    have hpm : (0:ℤ) < B ^ (m + 1) := by positivity
    have hr : 0 ≤ x % B ^ (m + 1) := Int.emod_nonneg _ (by omega)
    have hr' : x % B ^ (m + 1) < B ^ (m + 1) := Int.emod_lt_of_pos _ hpm
    have hd := getDigit_false_range (show (0:ℤ) < B by omega) hx0 hpm
    have hsplit := emod_mul_split x hpm (show (0:ℤ) < B by omega)
    have hpow : B ^ (m + 1) * B = B ^ (m + 1 + 1) := (pow_succ _ _).symm
    simp only [levelKey, levelW, Bool.false_eq_true, if_false]
    refine ⟨?_, hr, hr'⟩
    rw [Int.toNat_of_nonneg hd.1, getDigit_false_eq (by omega) hx0 (by omega), ← hpow,
      hsplit]
  · have hpm : (0:ℤ) < B ^ (m + 1) := by positivity
    have hd := getDigit_true_range x (show (0:ℤ) < B by omega) hpm
    have hb := negKey_bound hB m x
    simp only [levelKey, levelW, eq_self_iff_true, if_true]
    refine ⟨?_, hb.1, hb.2⟩
    rw [Int.toNat_of_nonneg (by omega), negKey_succ]

/-! ### One step of the MSD recursion -/

theorem helper_succ (B : ℤ) (neg : Bool) (fuel : ℕ) (d t : List ℤ) (m p : ℤ) :
    helper B neg (fuel + 1) d t m p
      = if 2 ≤ d.length ∧ 1 ≤ p then
          if 1 < p then
            (((helperParts B neg fuel d t m p).map Prod.snd).flatten,
             ((helperParts B neg fuel d t m p).map Prod.fst).flatten)
          else (d, scatter (fun x => (getDigit B neg x p).toNat) d t)
        else if m % 2 = 0 then (d, d) else (d, t) := rfl

theorem sorted_of_short {r : ℤ → ℤ → Prop} {d : List ℤ} (h : d.length < 2) :
    d.Sorted r := by
  rcases d with _ | ⟨x, _ | ⟨y, d⟩⟩
  · exact List.sorted_nil
  · exact List.sorted_singleton x
  · exfalso
    simp only [List.length_cons] at h
    omega

theorem helper_short {B : ℤ} (neg : Bool) (fuel : ℕ) (d t : List ℤ) (m p : ℤ)
    (hlen : ¬ 2 ≤ d.length) :
    resultOf m (helper B neg (fuel + 1) d t m p) = d := by
  rw [helper_succ, if_neg (fun h => hlen h.1)]
  unfold resultOf
  by_cases hpar : m % 2 = 0
  · rw [if_pos hpar, if_pos hpar]
  · rw [if_neg hpar, if_neg hpar]

theorem positionsOf_add_le (key : ℤ → ℕ) {nb : ℕ} (d : List ℤ)
    (hk : ∀ x ∈ d, key x < nb) {v : ℕ} (hv : v < nb) :
    positionsOf (cntOf key d) v + cntOf key d v ≤ d.length := by
  have h1 : positionsOf (cntOf key d) (v + 1) ≤ positionsOf (cntOf key d) nb :=
    positionsOf_mono _ hv
  rw [positionsOf_succ] at h1
  rw [← positionsOf_total key d hk]
  exact h1

theorem helperParts_eq {B : ℤ} (neg : Bool) (fuel : ℕ) (d t : List ℤ) (m p : ℤ)
    (ht : t.length = d.length)
    (hk : ∀ x ∈ d, (getDigit B neg x p).toNat < (2 * B).toNat) :
    helperParts B neg fuel d t m p
      = (List.range (2 * B).toNat).map fun v =>
          helper B neg fuel
            (d.filter fun x => decide ((getDigit B neg x p).toNat = v))
            ((d.drop (positionsOf (cntOf (fun x => (getDigit B neg x p).toNat) d) v)).take
              (cntOf (fun x => (getDigit B neg x p).toNat) d v))
            (m - 1) (cdiv p B) := by
  unfold helperParts
  apply List.map_congr_left
  intro v hv
  have hvnb := List.mem_range.mp hv
  rw [scatter_eq _ d t hk ht, countsOf_apply, positionsOf_congr (countsOf_apply _ d),
    bucketsJoin_slice _ d hvnb]

/-! ### Full correctness of the MSD recursion -/

theorem helper_spec {B : ℤ} (hB : 2 ≤ B) (neg : Bool) :
    ∀ (m : ℕ) (d t : List ℤ), t.length = d.length →
      (neg = false → ∀ x ∈ d, 0 ≤ x) →
      (resultOf (m : ℤ) (helper B neg (m + 1) d t (m : ℤ) (B ^ m))).Perm d ∧
      (resultOf (m : ℤ) (helper B neg (m + 1) d t (m : ℤ) (B ^ m))).Sorted
        fun a b => levelKey B neg m a ≤ levelKey B neg m b := by
  intro m
  induction m with
  | zero =>
    intro d t ht hdom
    by_cases hlen : 2 ≤ d.length
    · have hk : ∀ x ∈ d, (getDigit B neg x (B ^ 0)).toNat < (2 * B).toNat := by
        intro x hx
        exact keyMSD_lt hB (by rw [pow_zero]) neg fun hf => hdom hf x hx
      rw [pow_zero] at hk ⊢
      rw [helper_succ, if_pos ⟨hlen, le_refl 1⟩, if_neg (lt_irrefl 1)]
      have hres : resultOf ((0 : ℕ) : ℤ)
          (d, scatter (fun x => (getDigit B neg x 1).toNat) d t)
          = scatter (fun x => (getDigit B neg x 1).toNat) d t := by
        unfold resultOf
        rw [if_pos (by omega)]
      rw [hres, scatter_eq _ d t hk ht]
      constructor
      · exact bucketsJoin_perm _ d hk
      · unfold bucketsJoin
        refine sorted_flatten_buckets (fun _ => 0) (levelKey B neg 0)
          (fun x => (getDigit B neg x 1).toNat) 1 (2 * B).toNat _ ?_ ?_ ?_
        · intro v hv x hx
          have := List.of_mem_filter hx
          simpa using this
        · intro v hv x hx
          have hxd : x ∈ d := List.mem_of_mem_filter hx
          refine ⟨?_, le_refl 0, by norm_num⟩
          rw [levelKey_zero_eq hB neg fun hf => hdom hf x hxd]
          ring
        · intro v hv
          exact pairwise_trivial _
    · constructor
      · rw [helper_short neg 0 d t _ _ hlen]
      · rw [helper_short neg 0 d t _ _ hlen]
        exact sorted_of_short (by omega)
  | succ m ih =>
    intro d t ht hdom
    by_cases hlen : 2 ≤ d.length
    · have hp1 : (1:ℤ) < B ^ (m + 1) := by
        calc (1:ℤ) < B := by omega
        _ = B ^ 1 := (pow_one B).symm
        _ ≤ B ^ (m + 1) := pow_le_pow_right₀ (by omega) (by omega)
      have hp : (1:ℤ) ≤ B ^ (m + 1) := le_of_lt hp1
      have hk : ∀ x ∈ d, (getDigit B neg x (B ^ (m + 1))).toNat < (2 * B).toNat := by
        intro x hx
        exact keyMSD_lt hB hp neg fun hf => hdom hf x hx
      have hm1 : ((m + 1 : ℕ) : ℤ) - 1 = ((m : ℕ) : ℤ) := by push_cast; ring
      have hcdiv : cdiv (B ^ (m + 1)) B = B ^ m := by
        rw [cdiv_of_nonneg (by positivity) (by omega), pow_succ,
          Int.mul_ediv_cancel _ (by omega : (B:ℤ) ≠ 0)]
      rw [helper_succ, if_pos ⟨hlen, hp⟩, if_pos hp1,
        helperParts_eq neg (m + 1) d t _ _ ht hk]
      simp only [hm1, hcdiv]
      -- the contents of bucket v and the child result for bucket v
      set key := fun x : ℤ => (getDigit B neg x (B ^ (m + 1))).toNat with hkeydef
      set flt := fun v => d.filter fun x => decide (key x = v) with hfltdef
      set chld := fun v => helper B neg (m + 1) (flt v)
        ((d.drop (positionsOf (cntOf key d) v)).take (cntOf key d v))
        ((m : ℕ) : ℤ) (B ^ m) with hchlddef
      have hchild : ∀ v, v < (2 * B).toNat →
          (resultOf ((m : ℕ) : ℤ) (chld v)).Perm (flt v) ∧
          (resultOf ((m : ℕ) : ℤ) (chld v)).Sorted
            fun a b => levelKey B neg m a ≤ levelKey B neg m b := by
        intro v hv
        apply ih
        · have hle := positionsOf_add_le key d hk hv
          have hflen : (flt v).length = cntOf key d v := rfl
          rw [List.length_take, List.length_drop, hflen]
          exact min_eq_left (by omega)
        · intro hf x hx
          exact hdom hf x (List.mem_of_mem_filter hx)
      -- identify the parent result with the flattened child results
      have hmain : resultOf ((m + 1 : ℕ) : ℤ)
          ((((List.range (2 * B).toNat).map chld).map Prod.snd).flatten,
           (((List.range (2 * B).toNat).map chld).map Prod.fst).flatten)
          = (((List.range (2 * B).toNat)).map
              fun v => resultOf ((m : ℕ) : ℤ) (chld v)).flatten := by
        unfold resultOf
        by_cases hpar : ((m + 1 : ℕ) : ℤ) % 2 = 0
        · have hparm : ¬ ((m : ℕ) : ℤ) % 2 = 0 := by push_cast at hpar ⊢; omega
          rw [if_pos hpar]
          show (((List.range (2 * B).toNat).map chld).map Prod.fst).flatten = _
          rw [List.map_map]
          congr 1
          apply List.map_congr_left
          intro v hv
          show (chld v).1 = _
          rw [if_neg hparm]
        · have hparm : ((m : ℕ) : ℤ) % 2 = 0 := by push_cast at hpar ⊢; omega
          rw [if_neg hpar]
          show (((List.range (2 * B).toNat).map chld).map Prod.snd).flatten = _
          rw [List.map_map]
          congr 1
          apply List.map_congr_left
          intro v hv
          show (chld v).2 = _
          rw [if_pos hparm]
      rw [hmain]
      constructor
      · refine List.Perm.trans
          (perm_flatten_congr fun v hv => (hchild v (List.mem_range.mp hv)).1) ?_
        exact bucketsJoin_perm key d hk
      · refine sorted_flatten_buckets (levelKey B neg m) (levelKey B neg (m + 1)) key
          (levelW B neg (m + 1)) (2 * B).toNat _ ?_ ?_ ?_
        · intro v hv x hx
          have hxf : x ∈ flt v := ((hchild v hv).1.mem_iff).mp hx
          have := List.of_mem_filter hxf
          simpa using this
        · intro v hv x hx
          have hxf : x ∈ flt v := ((hchild v hv).1.mem_iff).mp hx
          have hxd : x ∈ d := List.mem_of_mem_filter hxf
          exact levelKey_succ_decomp hB neg m fun hf => hdom hf x hxd
        · intro v hv
          exact (hchild v hv).2
    · constructor
      · rw [helper_short neg (m + 1) d t _ _ hlen]
      · rw [helper_short neg (m + 1) d t _ _ hlen]
        exact sorted_of_short (by omega)

/-! ### Full correctness of the LSD loop -/

theorem sorted_le_of_bounded {exp : ℤ} (d : List ℤ) (hd : ∀ x ∈ d, 0 ≤ x ∧ x < exp)
    (hs : d.Sorted fun a b => a % exp ≤ b % exp) : d.Sorted (· ≤ ·) := by
  refine List.Pairwise.imp_of_mem ?_ hs
  intro a b ha hb hab
  rwa [Int.emod_eq_of_lt (hd a ha).1 (hd a ha).2,
    Int.emod_eq_of_lt (hd b hb).1 (hd b hb).2] at hab

theorem lsd_step_sorted {B : ℤ} (hB : 2 ≤ B) (k : ℕ) (d : List ℤ)
    (hd : ∀ x ∈ d, 0 ≤ x)
    (hs : d.Sorted fun a b => a % B ^ k ≤ b % B ^ k) :
    (bucketsJoin (fun x => (getDigitCg B x (B ^ k)).toNat) B.toNat d).Sorted
      fun a b => a % B ^ (k + 1) ≤ b % B ^ (k + 1) := by
  have hpk : (0:ℤ) < B ^ k := by positivity
  unfold bucketsJoin
  refine sorted_flatten_buckets (fun x => x % B ^ k) (fun x => x % B ^ (k + 1))
    (fun x => (getDigitCg B x (B ^ k)).toNat) (B ^ k) B.toNat _ ?_ ?_ ?_
  · intro v hv x hx
    have := List.of_mem_filter hx
    simpa using this
  · intro v hv x hx
    have hxd : x ∈ d := List.mem_of_mem_filter hx
    have hx0 : 0 ≤ x := hd x hxd
    have hr : 0 ≤ x % B ^ k := Int.emod_nonneg _ (by omega)
    have hr' : x % B ^ k < B ^ k := Int.emod_lt_of_pos _ hpk
    refine ⟨?_, hr, hr'⟩
    have hdig : 0 ≤ getDigitCg B x (B ^ k) := by
      rw [getDigitCg_eq (by omega) hx0 hpk]
      exact Int.emod_nonneg _ (by omega)
    show x % B ^ (k + 1) = ((getDigitCg B x (B ^ k)).toNat : ℤ) * B ^ k + x % B ^ k
    rw [Int.toNat_of_nonneg hdig, getDigitCg_eq (by omega) hx0 hpk, pow_succ]
    exact emod_mul_split x hpk (by omega)
  · intro v hv
    exact hs.filter _

theorem radixLoop_succ (B mx : ℤ) (fuel : ℕ) (d : List ℤ) (exp : ℤ) :
    radixLoop B mx (fuel + 1) d exp
      = if exp ≤ mx then radixLoop B mx fuel (counting_sort B d exp) (exp * B) else d := rfl

theorem radixLoop_spec {B : ℤ} (hB : 2 ≤ B) (mx : ℤ) :
    ∀ (fuel k : ℕ) (d : List ℤ),
      (∀ x ∈ d, 0 ≤ x ∧ x ≤ mx) →
      mx < B ^ k + fuel →
      d.Sorted (fun a b => a % B ^ k ≤ b % B ^ k) →
      (radixLoop B mx fuel d (B ^ k)).Perm d ∧
      (radixLoop B mx fuel d (B ^ k)).Sorted (· ≤ ·) := by
  intro fuel
  induction fuel with
  | zero =>
    intro k d hd hf hs
    refine ⟨List.Perm.refl _, ?_⟩
    exact sorted_le_of_bounded d (fun x hx => ⟨(hd x hx).1, by have := (hd x hx).2; omega⟩) hs
  | succ fuel ih =>
    intro k d hd hf hs
    rw [radixLoop_succ]
    by_cases hle : B ^ k ≤ mx
    · rw [if_pos hle]
      have hpk : (0:ℤ) < B ^ k := by positivity
      have hcs : counting_sort B d (B ^ k)
          = bucketsJoin (fun x => (getDigitCg B x (B ^ k)).toNat) B.toNat d :=
        counting_sort_eq hB d (by omega) (fun x hx => (hd x hx).1)
      have hkd : ∀ x ∈ d, (getDigitCg B x (B ^ k)).toNat < B.toNat :=
        fun x hx => keyCg_lt hB (by omega) (hd x hx).1
      have hperm : (counting_sort B d (B ^ k)).Perm d := by
        rw [hcs]
        exact bucketsJoin_perm _ d hkd
      have hpow : B ^ k * B = B ^ (k + 1) := (pow_succ B k).symm
      rw [hpow]
      have hnext := ih (k + 1) (counting_sort B d (B ^ k))
        (fun x hx => hd x (hperm.mem_iff.mp hx))
        (by
          have h2 : 2 * B ^ k ≤ B ^ (k + 1) := by
            rw [pow_succ]
            nlinarith
          omega)
        (by
          rw [hcs]
          exact lsd_step_sorted hB k d (fun x hx => (hd x hx).1) hs)
      exact ⟨hnext.1.trans hperm, hnext.2⟩
    · rw [if_neg hle]
      refine ⟨List.Perm.refl _, ?_⟩
      exact sorted_le_of_bounded d
        (fun x hx => ⟨(hd x hx).1, by have := (hd x hx).2; omega⟩) hs

theorem foldl_max_le (l : List ℤ) : ∀ a : ℤ, a ≤ l.foldl max a ∧ ∀ x ∈ l, x ≤ l.foldl max a := by
  induction l with
  | nil =>
    intro a
    exact ⟨le_refl a, by simp⟩
  | cons y l ih =>
    intro a
    rw [List.foldl_cons]
    refine ⟨le_trans (le_max_left a y) (ih (max a y)).1, ?_⟩
    intro x hx
    rcases List.mem_cons.mp hx with rfl | hx
    · exact le_trans (le_max_right a x) (ih (max a x)).1
    · exact (ih (max a y)).2 x hx

theorem foldl_min_le (l : List ℤ) : ∀ a : ℤ, l.foldl min a ≤ a ∧ ∀ x ∈ l, l.foldl min a ≤ x := by
  induction l with
  | nil =>
    intro a
    exact ⟨le_refl a, by simp⟩
  | cons y l ih =>
    intro a
    rw [List.foldl_cons]
    refine ⟨le_trans (ih (min a y)).1 (min_le_left a y), ?_⟩
    intro x hx
    rcases List.mem_cons.mp hx with rfl | hx
    · exact le_trans (ih (min a x)).1 (min_le_right a x)
    · exact (ih (min a y)).2 x hx

theorem radix_sort_spec {B : ℤ} (hB : 2 ≤ B) (d : List ℤ) (hd : ∀ x ∈ d, 0 ≤ x) :
    (radix_sort B d).Perm d ∧ (radix_sort B d).Sorted (· ≤ ·) := by
  unfold radix_sort
  by_cases hnil : d = []
  · rw [if_pos hnil]
    exact ⟨List.Perm.refl _, by rw [hnil]; exact List.sorted_nil⟩
  · rw [if_neg hnil]
    by_cases hlen : d.length < 2
    · rw [if_pos hlen]
      exact ⟨List.Perm.refl _, sorted_of_short hlen⟩
    · rw [if_neg hlen]
      have hbound := foldl_max_le d d.headI
      have hmx : ∀ x ∈ d, x ≤ d.foldl max d.headI := hbound.2
      have h1 : (1:ℤ) = B ^ 0 := (pow_zero B).symm
      rw [h1]
      refine radixLoop_spec hB _ _ 0 d (fun x hx => ⟨hd x hx, hmx x hx⟩) ?_ ?_
      · rw [pow_zero]
        have hnn : 0 ≤ d.foldl max d.headI := by
          have hmem : d.headI ∈ d := by
            rcases d with _ | ⟨x, d⟩
            · exact absurd rfl hnil
            · exact List.mem_cons_self _ _
          exact le_trans (hd d.headI hmem) hbound.1
        omega
      · refine List.Pairwise.imp_of_mem ?_ (pairwise_trivial d)
        intro a b _ _ _
        rw [pow_zero, Int.emod_one, Int.emod_one]

/-! ### The biased digit string reproduces signed order -/

theorem mkey_succ (B : ℤ) (m : ℕ) (z : ℤ) :
    mkey B (m + 1) z = z / B ^ (m + 1) % B * (2 * B) ^ (m + 1) + mkey B m z := rfl

theorem mkey_bounds {B : ℤ} (hB : 2 ≤ B) (m : ℕ) (z : ℤ) :
    0 ≤ mkey B m z ∧ mkey B m z < (2 * B) ^ (m + 1) := by
  induction m with
  | zero =>
    have h1 : 0 ≤ z % B := Int.emod_nonneg _ (by omega)
    have h2 : z % B < B := Int.emod_lt_of_pos _ (by omega)
    have : mkey B 0 z = z % B := rfl
    rw [this, pow_one]
    omega
  | succ m ih =>
    have h1 : 0 ≤ z / B ^ (m + 1) % B := Int.emod_nonneg _ (by omega)
    have h2 : z / B ^ (m + 1) % B < B := Int.emod_lt_of_pos _ (by omega)
    have hX : (0:ℤ) < (2 * B) ^ (m + 1) := by positivity
    have hpow : (2 * B) ^ (m + 1 + 1) = (2 * B) ^ (m + 1) * (2 * B) := pow_succ _ _
    rw [mkey_succ]
    constructor
    · nlinarith [ih.1]
    · nlinarith [ih.2]

theorem mkey_of_zero (B : ℤ) (m : ℕ) : mkey B m 0 = 0 := by
  induction m with
  | zero =>
    show (0:ℤ) % B = 0
    exact Int.zero_emod B
  | succ m ih =>
    rw [mkey_succ, ih, Int.zero_ediv, Int.zero_emod]
    ring

theorem mkey_emod {B : ℤ} (hB : 2 ≤ B) : ∀ (m : ℕ) (z : ℤ),
    mkey B m (z % B ^ (m + 1)) = mkey B m z := by
  intro m
  induction m with
  | zero =>
    intro z
    show z % B ^ 1 % B = z % B
    rw [pow_one]
    exact Int.emod_emod_of_dvd z (dvd_refl B)
  | succ m ih =>
    intro z
    rw [mkey_succ, mkey_succ]
    have hdig : z % B ^ (m + 1 + 1) / B ^ (m + 1) % B = z / B ^ (m + 1) % B := by
      have hz : z = z % B ^ (m + 1 + 1) + z / B ^ (m + 1 + 1) * B * B ^ (m + 1) := by
        have h := Int.ediv_add_emod z (B ^ (m + 1 + 1))
        rw [pow_succ]
        ring_nf
        ring_nf at h
        omega
      have hdiv : z / B ^ (m + 1)
          = z % B ^ (m + 1 + 1) / B ^ (m + 1) + z / B ^ (m + 1 + 1) * B := by
        conv_lhs => rw [hz]
        exact Int.add_mul_ediv_right _ _ (by positivity)
      rw [hdiv, Int.add_mul_emod_self]
    have htail : mkey B m (z % B ^ (m + 1 + 1)) = mkey B m z := by
      have h1 : z % B ^ (m + 1 + 1) % B ^ (m + 1) = z % B ^ (m + 1) :=
        Int.emod_emod_of_dvd z (pow_dvd_pow B (by omega))
      calc mkey B m (z % B ^ (m + 1 + 1))
          = mkey B m (z % B ^ (m + 1 + 1) % B ^ (m + 1)) := (ih _).symm
        _ = mkey B m (z % B ^ (m + 1)) := by rw [h1]
        _ = mkey B m z := ih z
    rw [hdig, htail]

theorem mkey_strictMono {B : ℤ} (hB : 2 ≤ B) :
    ∀ (m : ℕ) {z₁ z₂ : ℤ}, 0 ≤ z₁ → z₁ < z₂ → z₂ < B ^ (m + 1) →
      mkey B m z₁ < mkey B m z₂ := by
  intro m
  induction m with
  | zero =>
    intro z₁ z₂ h1 h2 h3
    rw [pow_one] at h3
    have e1 : mkey B 0 z₁ = z₁ % B := rfl
    have e2 : mkey B 0 z₂ = z₂ % B := rfl
    rw [e1, e2, Int.emod_eq_of_lt h1 (by omega), Int.emod_eq_of_lt (by omega) h3]
    exact h2
  | succ m ih =>
    intro z₁ z₂ h1 h2 h3
    have hp : (0:ℤ) < B ^ (m + 1) := by positivity
    have ha₁ : 0 ≤ z₁ / B ^ (m + 1) := Int.ediv_nonneg h1 (by positivity)
    have ha₂ : 0 ≤ z₂ / B ^ (m + 1) := Int.ediv_nonneg (by omega) (by positivity)
    have hb₂ : z₂ / B ^ (m + 1) < B := by
      rw [Int.ediv_lt_iff_lt_mul hp]
      calc z₂ < B ^ (m + 1 + 1) := h3
        _ = B * B ^ (m + 1) := by ring
    have hb₁ : z₁ / B ^ (m + 1) < B := by
      rw [Int.ediv_lt_iff_lt_mul hp]
      have : z₁ < B ^ (m + 1 + 1) := by omega
      calc z₁ < B ^ (m + 1 + 1) := this
        _ = B * B ^ (m + 1) := by ring
    have hmod₁ : z₁ / B ^ (m + 1) % B = z₁ / B ^ (m + 1) := Int.emod_eq_of_lt ha₁ hb₁
    have hmod₂ : z₂ / B ^ (m + 1) % B = z₂ / B ^ (m + 1) := Int.emod_eq_of_lt ha₂ hb₂
    have hdivle : z₁ / B ^ (m + 1) ≤ z₂ / B ^ (m + 1) :=
      Int.ediv_le_ediv hp (by omega)
    have hX : (0:ℤ) < (2 * B) ^ (m + 1) := by positivity
    rcases lt_or_eq_of_le hdivle with halt | haeq
    · rw [mkey_succ, mkey_succ, hmod₁, hmod₂]
      have hbnd₁ := mkey_bounds hB m z₁
      have hbnd₂ := mkey_bounds hB m z₂
      nlinarith
    · rw [mkey_succ, mkey_succ, hmod₁, hmod₂, ← haeq]
      have hkey : mkey B m z₁ < mkey B m z₂ := by
        have hr₁ : z₁ % B ^ (m + 1) = z₁ - B ^ (m + 1) * (z₁ / B ^ (m + 1)) := by
          have := Int.ediv_add_emod z₁ (B ^ (m + 1))
          omega
        have hr₂ : z₂ % B ^ (m + 1) = z₂ - B ^ (m + 1) * (z₂ / B ^ (m + 1)) := by
          have := Int.ediv_add_emod z₂ (B ^ (m + 1))
          omega
        have hrlt : z₁ % B ^ (m + 1) < z₂ % B ^ (m + 1) := by
          rw [hr₁, hr₂, ← haeq]
          omega
        have hrnn : 0 ≤ z₁ % B ^ (m + 1) := Int.emod_nonneg _ (by positivity)
        have hrub : z₂ % B ^ (m + 1) < B ^ (m + 1) := Int.emod_lt_of_pos _ hp
        have := ih hrnn hrlt hrub
        rwa [mkey_emod hB, mkey_emod hB] at this
      omega

theorem mkey_pos {B : ℤ} (hB : 2 ≤ B) (m : ℕ) {z : ℤ} (h0 : 0 < z)
    (hub : z < B ^ (m + 1)) : 0 < mkey B m z := by
  have := mkey_strictMono hB m (le_refl 0) h0 hub
  rwa [mkey_of_zero] at this

theorem Cbias_succ (B : ℤ) (m : ℕ) :
    Cbias B (m + 1) = B * (2 * B) ^ (m + 1) + Cbias B m := rfl

theorem negKey_eq_nonneg {B : ℤ} (hB : 2 ≤ B) (m : ℕ) {x : ℤ} (hx : 0 ≤ x) :
    negKey B m x = Cbias B m + mkey B m x := by
  induction m with
  | zero =>
    show getDigit B true x 1 = _
    rw [getDigit_true_of_nonneg (by omega) hx (by omega), Int.ediv_one]
    rfl
  | succ m ih =>
    rw [negKey_succ, getDigit_true_of_nonneg (by omega) hx (by positivity), ih,
      Cbias_succ, mkey_succ]
    ring

theorem negKey_eq_neg {B : ℤ} (hB : 2 ≤ B) (m : ℕ) {x : ℤ} (hx : x < 0) :
    negKey B m x = Cbias B m - mkey B m (-x) := by
  induction m with
  | zero =>
    show getDigit B true x 1 = _
    rw [getDigit_true_of_neg (by omega) hx (by omega), Int.ediv_one]
    rfl
  | succ m ih =>
    rw [negKey_succ, getDigit_true_of_neg (by omega) hx (by positivity), ih,
      Cbias_succ, mkey_succ]
    ring

theorem negKey_strictMono {B : ℤ} (hB : 2 ≤ B) (m : ℕ) {x y : ℤ}
    (hx : -(B ^ (m + 1)) < x) (hy : y < B ^ (m + 1)) (hxy : x < y) :
    negKey B m x < negKey B m y := by
  rcases lt_or_le x 0 with hx0 | hx0
  · rcases lt_or_le y 0 with hy0 | hy0
    · rw [negKey_eq_neg hB m hx0, negKey_eq_neg hB m hy0]
      have := mkey_strictMono hB m (show (0:ℤ) ≤ -y by omega) (show -y < -x by omega)
        (show -x < B ^ (m + 1) by omega)
      omega
    · rw [negKey_eq_neg hB m hx0, negKey_eq_nonneg hB m hy0]
      have h1 : 0 < mkey B m (-x) := mkey_pos hB m (by omega) (by omega)
      have h2 := (mkey_bounds hB m y).1
      omega
  · have hy0 : 0 ≤ y := by omega
    rw [negKey_eq_nonneg hB m hx0, negKey_eq_nonneg hB m hy0]
    have := mkey_strictMono hB m hx0 hxy hy
    omega

/-! ### The digit-count function -/

theorem ediv_lt_of_pos {a b : ℤ} (ha : 0 < a) (hb : 1 < b) : a / b < a := by
  rw [Int.ediv_lt_iff_lt_mul (by omega)]
  nlinarith

theorem digitsLoop_succ (B : ℤ) (fuel : ℕ) (v : ℤ) (k : ℕ) :
    digitsLoop B (fuel + 1) v k
      = if B ≤ v then digitsLoop B fuel (cdiv v B) (k + 1) else k := rfl

theorem digitsLoop_ge (B : ℤ) : ∀ (fuel : ℕ) (v : ℤ) (k : ℕ), k ≤ digitsLoop B fuel v k := by
  intro fuel
  induction fuel with
  | zero => intro v k; exact le_refl k
  | succ fuel ih =>
    intro v k
    rw [digitsLoop_succ]
    by_cases h : B ≤ v
    · rw [if_pos h]
      exact le_trans (by omega) (ih (cdiv v B) (k + 1))
    · rw [if_neg h]

theorem digitsLoop_bound {B : ℤ} (hB : 2 ≤ B) :
    ∀ (fuel : ℕ) (v : ℤ) (k : ℕ), 0 ≤ v → v.toNat < fuel →
      ∃ j : ℕ, digitsLoop B fuel v k = k + j ∧ v < B ^ (j + 1) := by
  intro fuel
  induction fuel with
  | zero => intro v k hv hf; omega
  | succ fuel ih =>
    intro v k hv hf
    rw [digitsLoop_succ]
    by_cases hvB : B ≤ v
    · rw [if_pos hvB]
      have hdivq : cdiv v B = v / B := cdiv_of_nonneg hv (by omega)
      have hdnn : 0 ≤ cdiv v B := by
        rw [hdivq]
        exact Int.ediv_nonneg hv (by omega)
      have hdlt : cdiv v B < v := by
        rw [hdivq]
        exact ediv_lt_of_pos (by omega) (by omega)
      obtain ⟨j, hj, hjb⟩ := ih (cdiv v B) (k + 1) hdnn (by omega)
      refine ⟨j + 1, by omega, ?_⟩
      have hvd := Int.ediv_add_emod v B
      have hmod : v % B < B := Int.emod_lt_of_pos _ (by omega)
      have hmodnn : 0 ≤ v % B := Int.emod_nonneg _ (by omega)
      have hpow : B ^ (j + 1 + 1) = B * B ^ (j + 1) := by ring
      rw [hdivq] at hjb
      nlinarith
    · rw [if_neg hvB]
      exact ⟨0, rfl, by rw [pow_one]; omega⟩

theorem digitsLoop_congr {B : ℤ} (hB : 2 ≤ B) :
    ∀ (f₁ f₂ : ℕ) (v : ℤ) (k : ℕ), 0 ≤ v → v.toNat < f₁ → v.toNat < f₂ →
      digitsLoop B f₁ v k = digitsLoop B f₂ v k := by
  intro f₁
  induction f₁ with
  | zero => intro f₂ v k hv h1 h2; omega
  | succ f₁ ih =>
    intro f₂ v k hv h1 h2
    rcases f₂ with _ | f₂
    · omega
    · rw [digitsLoop_succ, digitsLoop_succ]
      by_cases hvB : B ≤ v
      · rw [if_pos hvB, if_pos hvB]
        have hdivq : cdiv v B = v / B := cdiv_of_nonneg hv (by omega)
        have hdnn : 0 ≤ cdiv v B := by
          rw [hdivq]
          exact Int.ediv_nonneg hv (by omega)
        have hdlt : cdiv v B < v := by
          rw [hdivq]
          exact ediv_lt_of_pos (by omega) (by omega)
        exact ih f₂ (cdiv v B) (k + 1) hdnn (by omega) (by omega)
      · rw [if_neg hvB, if_neg hvB]

theorem get_digits_pos (B v : ℤ) : 1 ≤ get_digits B v := by
  unfold get_digits
  by_cases hv : v < 0
  · rw [if_pos hv]
    by_cases hv2 : -B < v
    · rw [if_pos hv2]
    · rw [if_neg hv2]
      exact le_trans (by omega) (digitsLoop_ge B _ _ 2)
  · rw [if_neg hv]
    exact digitsLoop_ge B _ _ 1

theorem get_digits_lt_nonneg {B : ℤ} (hB : 2 ≤ B) {v : ℤ} (hv : 0 ≤ v) :
    v < B ^ get_digits B v := by
  unfold get_digits
  rw [if_neg (by omega)]
  obtain ⟨j, hj, hjb⟩ := digitsLoop_bound hB v.toNat.succ v 1 hv (by omega)
  rw [hj]
  calc v < B ^ (j + 1) := hjb
    _ = B ^ (1 + j) := by ring

theorem get_digits_neg_eq {B : ℤ} (hB : 2 ≤ B) {v : ℤ} (hv : v < 0) :
    get_digits B v = get_digits B (-v) := by
  unfold get_digits
  rw [if_pos hv, if_neg (by omega : ¬ -v < 0)]
  by_cases hv2 : -B < v
  · rw [if_pos hv2]
    have : (-v).toNat.succ = (-v).toNat + 1 := rfl
    rw [this, digitsLoop_succ, if_neg (by omega)]
  · rw [if_neg hv2]
    have hw : -(cdiv v B) = (-v) / B := by
      rw [cdiv_neg_pos (by omega) (by omega), neg_neg]
    have hwnn : 0 ≤ -(cdiv v B) := by
      rw [hw]
      exact Int.ediv_nonneg (by omega) (by omega)
    have hwlt : -(cdiv v B) < -v := by
      rw [hw]
      exact ediv_lt_of_pos (by omega) (by omega)
    have hcd : cdiv (-v) B = -(cdiv v B) := by
      rw [hw, cdiv_of_nonneg (by omega) (by omega)]
    have hrhs : digitsLoop B (-v).toNat.succ (-v) 1
        = digitsLoop B (-v).toNat (-(cdiv v B)) 2 := by
      rw [show (-v).toNat.succ = (-v).toNat + 1 from rfl, digitsLoop_succ,
        if_pos (show B ≤ -v by omega), hcd]
    rw [hrhs]
    exact digitsLoop_congr hB _ _ _ 2 hwnn (by omega) (by omega)

theorem get_digits_lt_neg {B : ℤ} (hB : 2 ≤ B) {v : ℤ} (hv : v < 0) :
    -v < B ^ get_digits B v := by
  rw [get_digits_neg_eq hB hv]
  exact get_digits_lt_nonneg hB (by omega)

theorem get_digits_small {B : ℤ} {v : ℤ}
    (hv : (if 0 ≤ v then v else -v) < B) : get_digits B v = 1 := by
  unfold get_digits
  by_cases hv0 : v < 0
  · rw [if_neg (by omega)] at hv
    rw [if_pos hv0, if_pos (by omega)]
  · rw [if_pos (by omega)] at hv
    rw [if_neg hv0]
    have : v.toNat.succ = v.toNat + 1 := rfl
    rw [this, digitsLoop_succ, if_neg (by omega)]

/-! ### Full correctness of the driver -/

theorem resultOf_driver (m : ℤ) (pr : List ℤ × List ℤ) :
    (if m % 2 = 1 then pr.1 else pr.2) = resultOf m pr := by
  unfold resultOf
  by_cases h : m % 2 = 0
  · rw [if_neg (by omega), if_pos h]
  · rw [if_pos (by omega), if_neg h]

theorem radixSorter_spec {B : ℤ} (hB : 2 ≤ B) (cg neg : Bool) (input : List ℤ)
    (hdom : (cg = false ∧ neg = true) ∨ ∀ x ∈ input, 0 ≤ x) :
    (radixSorter B cg neg input).Perm input ∧
    (radixSorter B cg neg input).Sorted (· ≤ ·) := by
  unfold radixSorter
  cases cg
  case true =>
    rw [if_pos rfl]
    have hnn : ∀ x ∈ input, 0 ≤ x := by
      rcases hdom with ⟨hcontra, _⟩ | h
      · exact absurd hcontra (by simp)
      · exact h
    exact radix_sort_spec hB input hnn
  case false =>
    rw [if_neg Bool.false_ne_true]
    by_cases hlen : input.length < 2
    · rw [if_pos hlen]
      exact ⟨List.Perm.refl _, sorted_of_short hlen⟩
    · rw [if_neg hlen]
      have hne : input ≠ [] := by
        intro h
        rw [h] at hlen
        simp at hlen
      have hheadmem : input.headI ∈ input := by
        rcases input with _ | ⟨x, l⟩
        · exact absurd rfl hne
        · exact List.mem_cons_self _ _
      have hmaxb := foldl_max_le input input.headI
      have hminb := foldl_min_le input input.headI
      cases neg with
      | false =>
        rw [if_neg Bool.false_ne_true]
        have hnn : ∀ x ∈ input, 0 ≤ x := by
          rcases hdom with ⟨_, hcontra⟩ | h
          · exact absurd hcontra (by simp)
          · exact h
        simp only [get_power_eq]
        rw [resultOf_driver]
        set mx := input.foldl max input.headI with hmx
        set m := get_digits B mx with hm
        have hspec := helper_spec hB false m input (List.replicate input.length 0)
          (List.length_replicate _ _) (fun _ => hnn)
        refine ⟨hspec.1, ?_⟩
        have hmx0 : 0 ≤ mx := le_trans (hnn _ hheadmem) hmaxb.1
        have hmxlt : mx < B ^ m := get_digits_lt_nonneg hB hmx0
        have hmono : B ^ m ≤ B ^ (m + 1) := pow_le_pow_right₀ (by omega) (by omega)
        refine List.Pairwise.imp_of_mem ?_ hspec.2
        intro a b ha hb hab
        have had : a ∈ input := hspec.1.mem_iff.mp ha
        have hbd : b ∈ input := hspec.1.mem_iff.mp hb
        have ha0 := hnn a had
        have hb0 := hnn b hbd
        have halt : a < B ^ (m + 1) := by
          have := hmaxb.2 a had
          omega
        have hblt : b < B ^ (m + 1) := by
          have := hmaxb.2 b hbd
          omega
        simp only [levelKey, Bool.false_eq_true, if_false] at hab
        rwa [Int.emod_eq_of_lt ha0 halt, Int.emod_eq_of_lt hb0 hblt] at hab
      | true =>
        rw [if_pos rfl]
        simp only [get_power_eq]
        rw [resultOf_driver]
        set mx := input.foldl max input.headI with hmx
        set mn := input.foldl min input.headI with hmn
        set m := max (get_digits B mn) (get_digits B mx) with hm
        have hspec := helper_spec hB true m input (List.replicate input.length 0)
          (List.length_replicate _ _) (fun hcontra => absurd hcontra (by simp))
        refine ⟨hspec.1, ?_⟩
        have hbnd : ∀ x ∈ input, -(B ^ m) < x ∧ x < B ^ m := by
          intro x hx
          constructor
          · rcases le_or_lt 0 x with hx0 | hx0
            · have hpos : (0:ℤ) < B ^ m := by positivity
              omega
            · have hmn_le : mn ≤ x := hminb.2 x hx
              have hmnneg : mn < 0 := by omega
              have h1 : -mn < B ^ get_digits B mn := get_digits_lt_neg hB hmnneg
              have h2 : B ^ get_digits B mn ≤ B ^ m :=
                pow_le_pow_right₀ (by omega) (le_max_left _ _)
              omega
          · rcases le_or_lt 0 x with hx0 | hx0
            · have hxmx : x ≤ mx := hmaxb.2 x hx
              have hmx0 : 0 ≤ mx := by omega
              have h1 : mx < B ^ get_digits B mx := get_digits_lt_nonneg hB hmx0
              have h2 : B ^ get_digits B mx ≤ B ^ m :=
                pow_le_pow_right₀ (by omega) (le_max_right _ _)
              omega
            · have hpos : (0:ℤ) < B ^ m := by positivity
              omega
        have hmono : B ^ m ≤ B ^ (m + 1) := pow_le_pow_right₀ (by omega) (by omega)
        refine List.Pairwise.imp_of_mem ?_ hspec.2
        intro a b ha hb hab
        have had : a ∈ input := hspec.1.mem_iff.mp ha
        have hbd : b ∈ input := hspec.1.mem_iff.mp hb
        have haB := hbnd a had
        have hbB := hbnd b hbd
        simp only [levelKey, eq_self_iff_true, if_true] at hab
        by_contra hba
        have hlt : b < a := by omega
        have := negKey_strictMono hB m (show -(B ^ (m + 1)) < b by omega)
          (show a < B ^ (m + 1) by omega) hlt
        omega

/-! ### The claims -/

/-- C1: for every finite input with base ≥ 2 and values in the supported
domain of the chosen configuration (non-negative values when negative handling
is disabled; any signed values with the MSD strategy when negative handling is
enabled), every adjacent pair `(a, b)` of the output of
`RadixSorter::operator()` satisfies `a ≤ b`. -/
theorem claim1_order_invariant {B : ℤ} (hB : 2 ≤ B) (chatGpt neg : Bool)
    (input : List ℤ)
    (hdom : (chatGpt = false ∧ neg = true) ∨ ∀ x ∈ input, 0 ≤ x) :
    List.Chain' (· ≤ ·) (radixSorter B chatGpt neg input) :=
  ((radixSorter_spec hB chatGpt neg input hdom).2).chain'

theorem claim1_witness :
    ((2:ℤ) ≤ 10 ∧ ∀ x ∈ ([2, 3, 1] : List ℤ), 0 ≤ x) ∧
    List.Chain' (· ≤ ·) (radixSorter 10 false false [2, 3, 1]) :=
  ⟨⟨by norm_num, by decide⟩,
    claim1_order_invariant (by norm_num) false false [2, 3, 1] (Or.inr (by decide))⟩

/-- C2: for every finite input with base ≥ 2 and values in the supported
domain of the chosen configuration, the output of `RadixSorter::operator()`
has the same multiset of values as the input (no element created, lost or
altered) and the same length. -/
theorem claim2_permutation {B : ℤ} (hB : 2 ≤ B) (chatGpt neg : Bool)
    (input : List ℤ)
    (hdom : (chatGpt = false ∧ neg = true) ∨ ∀ x ∈ input, 0 ≤ x) :
    ((radixSorter B chatGpt neg input : List ℤ) : Multiset ℤ) = (input : Multiset ℤ) ∧
    (radixSorter B chatGpt neg input).length = input.length := by
  have h := (radixSorter_spec hB chatGpt neg input hdom).1
  exact ⟨Multiset.coe_eq_coe.mpr h, h.length_eq⟩

theorem claim2_witness :
    ((2:ℤ) ≤ 10 ∧ ∀ x ∈ ([3, 1, 2, 1] : List ℤ), 0 ≤ x) ∧
    (((radixSorter 10 false false [3, 1, 2, 1] : List ℤ) : Multiset ℤ)
        = (([3, 1, 2, 1] : List ℤ) : Multiset ℤ) ∧
      (radixSorter 10 false false [3, 1, 2, 1]).length = ([3, 1, 2, 1] : List ℤ).length) :=
  ⟨⟨by norm_num, by decide⟩,
    claim2_permutation (by norm_num) false false [3, 1, 2, 1] (Or.inr (by decide))⟩

/-- C3: for every finite input of non-negative integers and base ≥ 2, the MSD
recursive strategy (`chatGpt = false`, `handleNegativeNumbers = false`) and
the LSD iterative strategy (`chatGpt = true`) produce identical outputs. -/
theorem claim3_msd_lsd_agree {B : ℤ} (hB : 2 ≤ B) (input : List ℤ)
    (hnn : ∀ x ∈ input, 0 ≤ x) :
    radixSorter B false false input = radixSorter B true false input := by
  have h1 := radixSorter_spec hB false false input (Or.inr hnn)
  have h2 := radixSorter_spec hB true false input (Or.inr hnn)
  exact List.eq_of_perm_of_sorted (h1.1.trans h2.1.symm) h1.2 h2.2

theorem claim3_witness :
    ((2:ℤ) ≤ 10 ∧ ∀ x ∈ ([22, 23, 21, 32, 33, 31, 12, 13, 11] : List ℤ), 0 ≤ x) ∧
    radixSorter 10 false false [22, 23, 21, 32, 33, 31, 12, 13, 11]
      = radixSorter 10 true false [22, 23, 21, 32, 33, 31, 12, 13, 11] :=
  ⟨⟨by norm_num, by decide⟩,
    claim3_msd_lsd_agree (by norm_num) [22, 23, 21, 32, 33, 31, 12, 13, 11] (by decide)⟩

/-- C4 as stated is false: at the top-level place value the sort actually uses
(`get_power(max_digits) = Base ^ max_digits`), every value's biased digit is
exactly `Base`, so a negative and a non-negative value can share one bucket.
Concretely, for base 10 and the input `[-10, 0]` the driver computes
`max_digits = 2` and top place value `100`, and
`get_digit(-10, 100) = 10 = get_digit(0, 100)`, not strictly smaller. -/
theorem claim4_counterexample :
    max (get_digits 10 (([-10, 0] : List ℤ).foldl min ([-10, 0] : List ℤ).headI))
        (get_digits 10 (([-10, 0] : List ℤ).foldl max ([-10, 0] : List ℤ).headI)) = 2 ∧
    get_power 10 2 = 100 ∧
    getDigit 10 true (-10) 100 = getDigit 10 true 0 100 ∧
    ¬ getDigit 10 true (-10) 100 < getDigit 10 true 0 100 := by
  refine ⟨by decide, by decide, by decide, by decide⟩

/-- C4 (amended): in negative mode with base ≥ 2 and place value ≥ 1, every
negative value's biased digit is at most `Base` and every non-negative value's
biased digit is at least `Base`, so a negative value's bucket never comes
after a non-negative value's bucket (`≤` rather than `<`). -/
theorem claim4_amended {B p a b : ℤ} (hB : 2 ≤ B) (hp : 1 ≤ p) (ha : a < 0)
    (hb : 0 ≤ b) :
    getDigit B true a p ≤ B ∧ B ≤ getDigit B true b p ∧
    getDigit B true a p ≤ getDigit B true b p := by
  rw [getDigit_true_of_neg (by omega) ha (by omega),
    getDigit_true_of_nonneg (by omega) hb (by omega)]
  have h1 : 0 ≤ (-a) / p % B := Int.emod_nonneg _ (by omega)
  have h2 : 0 ≤ b / p % B := Int.emod_nonneg _ (by omega)
  omega

theorem claim4_witness :
    ((2:ℤ) ≤ 10 ∧ (1:ℤ) ≤ 10 ∧ (-5:ℤ) < 0 ∧ (0:ℤ) ≤ 3) ∧
    (getDigit 10 true (-5) 10 ≤ 10 ∧ 10 ≤ getDigit 10 true 3 10 ∧
      getDigit 10 true (-5) 10 ≤ getDigit 10 true 3 10) :=
  ⟨⟨by norm_num, by norm_num, by norm_num, by norm_num⟩,
    claim4_amended (by norm_num) (by norm_num) (by norm_num) (by norm_num)⟩

/-- C5: for every input of length ≥ 2 sorted with the MSD strategy (values in
the supported domain), after the top-level `helper` call the fully sorted
result lies in the original copy buffer exactly when `max_digits` is odd and
in the scratch buffer when it is even, and the driver's return of
`(max_digits & 1) ? copy : temp` hands the caller exactly that buffer. -/
theorem claim5_buffer_parity {B : ℤ} (hB : 2 ≤ B) (neg : Bool) (input : List ℤ)
    (hlen : 2 ≤ input.length)
    (hdom : neg = true ∨ ∀ x ∈ input, 0 ≤ x)
    (m : ℕ)
    (hm : m = if neg then
        max (get_digits B (input.foldl min input.headI))
          (get_digits B (input.foldl max input.headI))
      else get_digits B (input.foldl max input.headI)) :
    (((m : ℤ) % 2 = 1 →
        (helper B neg (m + 1) input (List.replicate input.length 0) (m : ℤ)
            (get_power B m)).1.Perm input ∧
        (helper B neg (m + 1) input (List.replicate input.length 0) (m : ℤ)
            (get_power B m)).1.Sorted (· ≤ ·)) ∧
      ((m : ℤ) % 2 = 0 →
        (helper B neg (m + 1) input (List.replicate input.length 0) (m : ℤ)
            (get_power B m)).2.Perm input ∧
        (helper B neg (m + 1) input (List.replicate input.length 0) (m : ℤ)
            (get_power B m)).2.Sorted (· ≤ ·))) ∧
    radixSorter B false neg input
      = (if (m : ℤ) % 2 = 1 then
          (helper B neg (m + 1) input (List.replicate input.length 0) (m : ℤ)
            (get_power B m)).1
        else
          (helper B neg (m + 1) input (List.replicate input.length 0) (m : ℤ)
            (get_power B m)).2) := by
  have hdom' : (false = false ∧ neg = true) ∨ ∀ x ∈ input, 0 ≤ x := by
    rcases hdom with h | h
    · exact Or.inl ⟨rfl, h⟩
    · exact Or.inr h
  have hspec := radixSorter_spec hB false neg input hdom'
  have hdrv : radixSorter B false neg input
      = (if (m : ℤ) % 2 = 1 then
          (helper B neg (m + 1) input (List.replicate input.length 0) (m : ℤ)
            (get_power B m)).1
        else
          (helper B neg (m + 1) input (List.replicate input.length 0) (m : ℤ)
            (get_power B m)).2) := by
    unfold radixSorter
    rw [if_neg Bool.false_ne_true, if_neg (by omega)]
    cases neg with
    | false =>
      rw [if_neg Bool.false_ne_true]
      rw [hm]
      simp only [Bool.false_eq_true, if_false]
    | true =>
      rw [if_pos rfl]
      rw [hm]
      simp only [eq_self_iff_true, if_true]
  refine ⟨⟨?_, ?_⟩, hdrv⟩
  · intro hodd
    rw [hdrv, if_pos hodd] at hspec
    exact hspec
  · intro heven
    rw [hdrv, if_neg (by omega)] at hspec
    exact hspec

theorem claim5_witness :
    ((2:ℤ) ≤ 10 ∧ 2 ≤ ([2, 3, 1] : List ℤ).length ∧
      (∀ x ∈ ([2, 3, 1] : List ℤ), 0 ≤ x) ∧
      1 = if false then
          max (get_digits 10 (([2, 3, 1] : List ℤ).foldl min ([2, 3, 1] : List ℤ).headI))
            (get_digits 10 (([2, 3, 1] : List ℤ).foldl max ([2, 3, 1] : List ℤ).headI))
        else get_digits 10 (([2, 3, 1] : List ℤ).foldl max ([2, 3, 1] : List ℤ).headI)) ∧
    ((((1:ℕ) : ℤ) % 2 = 1 →
        (helper 10 false (1 + 1) [2, 3, 1] (List.replicate ([2, 3, 1] : List ℤ).length 0)
            ((1:ℕ) : ℤ) (get_power 10 1)).1.Perm [2, 3, 1] ∧
        (helper 10 false (1 + 1) [2, 3, 1] (List.replicate ([2, 3, 1] : List ℤ).length 0)
            ((1:ℕ) : ℤ) (get_power 10 1)).1.Sorted (· ≤ ·)) ∧
      (((1:ℕ) : ℤ) % 2 = 0 →
        (helper 10 false (1 + 1) [2, 3, 1] (List.replicate ([2, 3, 1] : List ℤ).length 0)
            ((1:ℕ) : ℤ) (get_power 10 1)).2.Perm [2, 3, 1] ∧
        (helper 10 false (1 + 1) [2, 3, 1] (List.replicate ([2, 3, 1] : List ℤ).length 0)
            ((1:ℕ) : ℤ) (get_power 10 1)).2.Sorted (· ≤ ·))) ∧
    radixSorter 10 false false [2, 3, 1]
      = (if ((1:ℕ) : ℤ) % 2 = 1 then
          (helper 10 false (1 + 1) [2, 3, 1] (List.replicate ([2, 3, 1] : List ℤ).length 0)
            ((1:ℕ) : ℤ) (get_power 10 1)).1
        else
          (helper 10 false (1 + 1) [2, 3, 1] (List.replicate ([2, 3, 1] : List ℤ).length 0)
            ((1:ℕ) : ℤ) (get_power 10 1)).2) :=
  ⟨⟨by norm_num, by decide, by decide, by decide⟩,
    (claim5_buffer_parity (by norm_num) false [2, 3, 1] (by decide)
      (Or.inr (by decide)) 1 (by decide)).1,
    (claim5_buffer_parity (by norm_num) false [2, 3, 1] (by decide)
      (Or.inr (by decide)) 1 (by decide)).2⟩

/-- C6: for base ≥ 2, `get_digits` is positive, `get_digits 0 = 1`, any value
of magnitude below the base has digit count 1, and a negative value has the
digit count of its magnitude. -/
theorem claim6_digit_count {B : ℤ} (hB : 2 ≤ B) (v : ℤ) :
    1 ≤ get_digits B v ∧
    get_digits B 0 = 1 ∧
    ((if 0 ≤ v then v else -v) < B → get_digits B v = 1) ∧
    (v < 0 → get_digits B v = get_digits B (-v)) := by
  refine ⟨get_digits_pos B v, ?_, fun h => get_digits_small h,
    fun h => get_digits_neg_eq hB h⟩
  exact get_digits_small (by norm_num; omega)

theorem claim6_witness :
    (2:ℤ) ≤ 10 ∧
    (1 ≤ get_digits 10 (-1234) ∧
      get_digits 10 0 = 1 ∧
      ((if 0 ≤ (-1234:ℤ) then (-1234:ℤ) else -(-1234:ℤ)) < 10 →
        get_digits 10 (-1234) = 1) ∧
      ((-1234:ℤ) < 0 → get_digits 10 (-1234) = get_digits 10 (-(-1234)))) :=
  ⟨by norm_num, claim6_digit_count (by norm_num) (-1234)⟩

/-- C7: for base ≥ 2 and every `w`-bit value including the minimum
representable one, the digit-count computation stays within the `w`-bit range
at every step: in the negative branch the quotient `value / Base` and its
negation are representable (the divide-first-then-negate order avoids the
overflow that negating the value itself could cause), and every subsequent
loop division keeps a non-negative value representable. -/
theorem claim7_no_overflow {w : ℕ} {B v : ℤ} (_hw : 1 ≤ w) (hB : 2 ≤ B)
    (hv : inRange w v) (hneg : v < 0) (hbig : ¬ (-B < v)) :
    inRange w (cdiv v B) ∧
    inRange w (-(cdiv v B)) ∧
    (∀ u : ℤ, 0 ≤ u → inRange w u → 0 ≤ cdiv u B ∧ cdiv u B ≤ u ∧ inRange w (cdiv u B)) := by
  obtain ⟨hlo, hhi⟩ := hv
  have hP : (0:ℤ) < 2 ^ (w - 1) := by positivity
  have hq : cdiv v B = -((-v) / B) := cdiv_neg_pos (by omega) (by omega)
  have hq1 : 1 ≤ (-v) / B := by
    rw [Int.le_ediv_iff_mul_le (by omega)]
    omega
  have hq2 : 2 * ((-v) / B) ≤ 2 ^ (w - 1) := by
    have hmul : ((-v) / B) * B ≤ -v := Int.ediv_mul_le _ (by omega)
    nlinarith [hq1]
  constructor
  · rw [hq]
    constructor <;> omega
  constructor
  · rw [hq]
    rw [neg_neg]
    constructor <;> omega
  · intro u hu hur
    have hd : cdiv u B = u / B := cdiv_of_nonneg hu (by omega)
    have h1 : 0 ≤ u / B := Int.ediv_nonneg hu (by omega)
    have h2 : u / B ≤ u := Int.ediv_le_self _ hu
    rw [hd]
    obtain ⟨hul, huh⟩ := hur
    exact ⟨h1, h2, by constructor <;> omega⟩

theorem claim7_witness :
    (1 ≤ 8 ∧ (2:ℤ) ≤ 10 ∧ inRange 8 (-128) ∧ (-128:ℤ) < 0 ∧ ¬ (-10 < (-128:ℤ))) ∧
    (inRange 8 (cdiv (-128) 10) ∧
      inRange 8 (-(cdiv (-128) 10)) ∧
      (∀ u : ℤ, 0 ≤ u → inRange 8 u →
        0 ≤ cdiv u 10 ∧ cdiv u 10 ≤ u ∧ inRange 8 (cdiv u 10))) :=
  ⟨⟨by norm_num, by norm_num, ⟨by norm_num, by norm_num⟩, by norm_num, by norm_num⟩,
    claim7_no_overflow (by norm_num) (by norm_num) ⟨by norm_num, by norm_num⟩
      (by norm_num) (by norm_num)⟩

/-- C8: with base ≥ 2, inputs of length 0 or 1 are returned as-is by both
strategies: `[] ↦ []` and `[x] ↦ [x]`. -/
theorem claim8_degenerate {B : ℤ} (_hB : 2 ≤ B) (chatGpt neg : Bool) (x : ℤ) :
    radixSorter B chatGpt neg [] = [] ∧ radixSorter B chatGpt neg [x] = [x] := by
  unfold radixSorter radix_sort
  cases chatGpt
  · constructor
    · rw [if_neg Bool.false_ne_true, if_pos (by norm_num)]
    · rw [if_neg Bool.false_ne_true, if_pos (by norm_num)]
  · constructor
    · rw [if_pos rfl, if_pos rfl]
    · rw [if_pos rfl, if_neg (by simp), if_pos (by norm_num)]

theorem claim8_witness :
    (2:ℤ) ≤ 10 ∧
    (radixSorter 10 false false [] = [] ∧ radixSorter 10 false false [5] = [5]) :=
  ⟨by norm_num, claim8_degenerate (by norm_num) false false 5⟩

/-- C10: in negative mode with base ≥ 2 and place value ≥ 1, the biased digit
is always in `[1, 2·Base - 1]` (never 0, so bucket 0 is always empty, and
never past the end of the `2·Base`-sized arrays), and a negative value of
magnitude below the place value lands in bucket `Base`, as does a
non-negative value whose digit at that place is 0. -/
theorem claim10_biased_digit_range {B p v : ℤ} (hB : 2 ≤ B) (hp : 1 ≤ p) :
    (1 ≤ getDigit B true v p ∧ getDigit B true v p ≤ 2 * B - 1) ∧
    (getDigit B true v p).toNat < (2 * B).toNat ∧
    (v < 0 → -v < p → getDigit B true v p = B) ∧
    (0 ≤ v → v / p % B = 0 → getDigit B true v p = B) := by
  have hr := getDigit_true_range v (show (0:ℤ) < B by omega) (show (0:ℤ) < p by omega)
  refine ⟨hr, by omega, ?_, ?_⟩
  · intro hv hvp
    rw [getDigit_true_of_neg (by omega) hv (by omega)]
    rw [Int.ediv_eq_zero_of_lt (by omega) (by omega)]
    simp
  · intro hv hd
    rw [getDigit_true_of_nonneg (by omega) hv (by omega), hd]
    ring

theorem claim10_witness :
    ((2:ℤ) ≤ 10 ∧ (1:ℤ) ≤ 100) ∧
    ((1 ≤ getDigit 10 true (-7) 100 ∧ getDigit 10 true (-7) 100 ≤ 2 * 10 - 1) ∧
      (getDigit 10 true (-7) 100).toNat < ((2:ℤ) * 10).toNat ∧
      ((-7:ℤ) < 0 → -(-7:ℤ) < 100 → getDigit 10 true (-7) 100 = 10) ∧
      ((0:ℤ) ≤ (-7:ℤ) → (-7:ℤ) / 100 % 10 = 0 → getDigit 10 true (-7) 100 = 10)) :=
  ⟨⟨by norm_num, by norm_num⟩, claim10_biased_digit_range (by norm_num) (by norm_num)⟩

end RadixSort
